import Mathlib

/-!
# Verification of the uview-miner-stats pipeline (src/src/main.rs)

A shallow embedding of the cached block-ingestion and address-matching
pipeline: the persistent `BlockCache`, the fetch stage of `main`
(range computation, diff against the cache, all-or-nothing merge), and
`compute_statistics` (per-miner address matching and aggregation).

Machine integers: heights are `u32` in the source and are modelled as `Nat`
(the program only manipulates heights inside the configured range, far from
overflow); monetary values are `i64` (`value_zat`) and are modelled as `Int`.
`f64` display/percentage values are modelled as exact rationals `ℚ`
(`.round()` on a nonnegative `f64` rounds half away from zero, i.e. half up,
which is Mathlib's `round`).

External collaborators (the JSON-RPC node and the cryptographic
`AddressDeriver`) are modelled as oracle parameters.
-/

/-- `CoinbaseOutput` (main.rs lines 183-187): one output of the coinbase
transaction, a signed 64-bit value in smallest units and a list of
addresses. -/
structure CoinbaseOutput where
  value_zat : Int
  addresses : List String
deriving Repr, DecidableEq

/-- `CachedBlock` (main.rs lines 176-181): a minimal block record, the
coinbase outputs only. -/
structure CachedBlock where
  height : Nat
  hash : String
  outputs : List CoinbaseOutput
deriving Repr, DecidableEq

/-- Association-list lookup modelling `BTreeMap::get`. -/
def assocGet : List (Nat × CachedBlock) → Nat → Option CachedBlock
  | [], _ => none
  | (k, v) :: rest, h => if k = h then some v else assocGet rest h

/-- Key-sorted insertion modelling `BTreeMap::insert` (replaces an existing
key, keeps the keys strictly increasing). -/
def insertSorted (k : Nat) (v : CachedBlock) : List (Nat × CachedBlock) → List (Nat × CachedBlock)
  | [] => [(k, v)]
  | (k1, v1) :: rest =>
    if k < k1 then (k, v) :: (k1, v1) :: rest
    else if k = k1 then (k, v) :: rest
    else (k1, v1) :: insertSorted k v rest

/-- `BlockCache` (main.rs lines 152-156): the persisted state, a
`BTreeMap<u32, CachedBlock>` (modelled as a key-sorted association list)
plus the last observed tip. `Default` gives the empty cache. -/
structure BlockCache where
  last_tip : Option Nat := none
  blocks : List (Nat × CachedBlock) := []
deriving Repr, DecidableEq

namespace BlockCache

/-- `cache.blocks.get(&h)` -/
def getBlock (c : BlockCache) (h : Nat) : Option CachedBlock :=
  assocGet c.blocks h

/-- `cache.blocks.contains_key(&h)` -/
def containsKey (c : BlockCache) (h : Nat) : Bool :=
  (c.getBlock h).isSome

/-- `cache.blocks.insert(k, v)` -/
def insertBlock (c : BlockCache) (k : Nat) (v : CachedBlock) : BlockCache :=
  { c with blocks := insertSorted k v c.blocks }

end BlockCache

/-- `(start..=tip).collect::<Vec<u32>>()` (main.rs line 39 / line 323). -/
def rangeHeights (start tip : Nat) : List Nat :=
  List.range' start (tip + 1 - start)

/-! ## RPC model (main.rs lines 189-316)

`NodeRpcClient.call_method` performs the HTTP/JSON-RPC round-trip; at the
level of the pipeline its observable behaviour is an oracle mapping each
request to either a result or a fatal `RpcError`-style message.  Only the
two methods used by `fetch_block` are modelled. -/

/-- `ScriptPubKey` (main.rs lines 313-316). -/
structure ScriptPubKey where
  addresses : Option (List String)
deriving Repr, DecidableEq

/-- `BlockVout` (main.rs lines 305-311). -/
structure BlockVout where
  value_zat : Int
  script_pub_key : ScriptPubKey
deriving Repr, DecidableEq

/-- `BlockTx` (main.rs lines 300-303). -/
structure BlockTx where
  vout : List BlockVout
deriving Repr, DecidableEq

/-- `BlockResult` (main.rs lines 276-281): the verbose `getblock` response. -/
structure BlockResult where
  hash : String
  height : Nat
  tx : List BlockTx
deriving Repr, DecidableEq

/-- `BlockResult::coinbase_outputs` (main.rs lines 284-298): outputs of the
first transaction only; empty when the block has no transactions; an output
with no reported addresses gets the empty list (`unwrap_or_default`). -/
def BlockResult.coinbase_outputs (b : BlockResult) : List CoinbaseOutput :=
  match b.tx.head? with
  | some t =>
    t.vout.map (fun v => { value_zat := v.value_zat, addresses := v.script_pub_key.addresses.getD [] })
  | none => []

/-- The node side of `NodeRpcClient`: each call either returns a decoded
result or fails (transport failure, HTTP status, JSON-RPC error envelope,
missing result — all collapse to an error message, as in `call_method`). -/
structure RpcOracle where
  getblockhash : Nat → Except String String
  getblock : String → Except String BlockResult

/-- `NodeRpcClient::fetch_block` (main.rs lines 211-221): resolve the height
to a hash, fetch the verbose block, keep the coinbase outputs.  Note the
returned record's `height` field is the *requested* height. -/
def fetch_block (rpc : RpcOracle) (height : Nat) : Except String CachedBlock := do
  let hash ← rpc.getblockhash height
  let block ← rpc.getblock hash
  pure { height := height, hash := hash, outputs := block.coinbase_outputs }

/-- `missing` (main.rs lines 40-44): in-range heights absent from the cache. -/
def missingHeights (cache : BlockCache) (start tip : Nat) : List Nat :=
  (rangeHeights start tip).filter (fun h => !(cache.containsKey h))

/-- `missing.par_iter().map(fetch_block).collect::<Result<Vec<_>>>()`
(main.rs lines 48-51): all results are collected behind a join; any failure
makes the whole collection fail and discards the successes. -/
def collectFetch (rpc : RpcOracle) : List Nat → Except String (List CachedBlock)
  | [] => .ok []
  | h :: rest => do
    let b ← fetch_block rpc h
    let bs ← collectFetch rpc rest
    pure (b :: bs)

/-- The fetch stage of `main` (main.rs lines 39-60), with the persisted file
made explicit: `disk` is the cache file's content when the stage starts, the
result pairs the outcome (the in-memory cache, or the fatal error that
aborts the run) with the cache file's content afterwards.  `save` fully
overwrites the file, so a successful save leaves the file equal to the
in-memory cache. -/
def fetchStage (rpc : RpcOracle) (cache : BlockCache) (start tip : Nat)
    (disk : BlockCache) : Except String BlockCache × BlockCache :=
  let missing := missingHeights cache start tip
  if missing.isEmpty = false then
    match collectFetch rpc missing with
    | .error e => (.error e, disk)
    | .ok fetched =>
      let cache1 := fetched.foldl (fun c b => c.insertBlock b.height b) cache
      let cache2 := { cache1 with last_tip := some tip }
      (.ok cache2, cache2)
  else if cache.last_tip ≠ some tip then
    let cache2 := { cache with last_tip := some tip }
    (.ok cache2, cache2)
  else
    (.ok cache, disk)

/-! ## Statistics engine (main.rs lines 318-506) -/

/-- `MinerEntry` (main.rs lines 101-105): an encoded viewing key and label. -/
structure MinerEntry where
  key : String
  label : String
deriving Repr, DecidableEq

/-- The fields of `MinerStatsConfig` consumed by the statistics engine
(chain and file paths are absorbed into the oracles / file-system model). -/
structure MinerStatsConfig where
  start_height : Nat
  miners : List MinerEntry
deriving Repr

/-- The external `AddressDeriver` capability (main.rs lines 340-341 and
353-356): `new_from_ufvk` decodes a viewing key into a key store (fatal
`KeyDecodeError` on failure); `generate_transparent_address` derives and
encodes the transparent address at a non-hardened index (fatal error on
failure).  `KS` is the abstract key-store type. -/
structure AddressDeriver (KS : Type) where
  new_from_ufvk : String → Except String KS
  generate_transparent_address : KS → Nat → Except String String

/-- `NonHardenedChildIndex::from_index` (main.rs line 350): a height is
representable as a derivation index iff it fits the 31-bit non-hardened
range. -/
def nonHardenedFromIndex (h : Nat) : Option Nat :=
  if h < 2 ^ 31 then some h else none

/-- `zats_to_wec` (main.rs lines 495-498), over exact rationals. -/
def zats_to_wec (zats : Int) : ℚ :=
  let wec : ℚ := (zats : ℚ) / 100000000
  ((round (wec * 100) : ℤ) : ℚ) / 100

/-- `percent_share_blocks` (main.rs lines 500-506), over exact rationals. -/
def percent_share_blocks (part total : Nat) : ℚ :=
  if total = 0 then 0
  else ((round ((part : ℚ) / (total : ℚ) * 100 * 100) : ℤ) : ℚ) / 100

/-- `MinerBlockDetail` (main.rs lines 451-456). -/
structure MinerBlockDetail where
  block_height : Nat
  block_hash : String
  payout_address : String
deriving Repr, DecidableEq

/-- `MinerSummary` (main.rs lines 441-449). -/
structure MinerSummary where
  label : String
  matched_blocks : Nat
  total_value_zat : Int
  total_value_wec : ℚ
  share_percent : ℚ
  detailed_blocks : List MinerBlockDetail
deriving Repr, DecidableEq

/-- `MinerAggregate` (main.rs lines 432-439). -/
structure MinerAggregate where
  label : String
  matched_blocks : Nat
  total_value_zat : Int
  total_value_wec : ℚ
  share_percent : ℚ
deriving Repr, DecidableEq

/-- `UnmatchedSummary` (main.rs lines 471-477). -/
structure UnmatchedSummary where
  blocks : Nat
  total_value_zat : Int
  total_value_wec : ℚ
  share_percent : ℚ
deriving Repr, DecidableEq

/-- `MinerStatsReport` (main.rs lines 458-469). -/
structure MinerStatsReport where
  start_height : Nat
  end_height : Nat
  total_mined_blocks : Nat
  total_value_zat : Int
  total_value_wec : ℚ
  miners : List MinerAggregate
  detailed_miners : List MinerSummary
  unmatched : UnmatchedSummary
deriving Repr, DecidableEq

/-- `matched_value` (main.rs lines 358-363): sum of the values of the
outputs whose address set contains the derived (encoded) address. -/
def matchedValue (outputs : List CoinbaseOutput) (encoded : String) : Int :=
  outputs.foldl
    (fun acc o => if o.addresses.any (fun addr => addr == encoded) then acc + o.value_zat else acc) 0

/-- The per-miner accumulators of the height loop (main.rs lines 342-344):
`blocks`, `total_value`, `details`. -/
structure MinerScanState where
  blocks : Nat
  total_value : Int
  details : List MinerBlockDetail
deriving Repr, DecidableEq

/-- The cross-miner accumulators (main.rs lines 336-337): the globally
matched height set (`BTreeSet<u32>`) and the per-height maximum matched
value (`HashMap<u32, i64>`, modelled as an association list with unique
keys; `HashMap` iteration order only feeds a commutative sum). -/
structure GlobalScanState where
  matched_blocks : Finset Nat
  block_totals : List (Nat × Int)
deriving DecidableEq

/-- `block_totals.entry(h).and_modify(|v| *v = (*v).max(mv)).or_insert(mv)`
(main.rs lines 368-371). -/
def updateBlockTotal (bt : List (Nat × Int)) (h : Nat) (mv : Int) : List (Nat × Int) :=
  match bt with
  | [] => [(h, mv)]
  | (k, w) :: rest => if k = h then (k, max w mv) :: rest else (k, w) :: updateBlockTotal rest h mv

/-- Lookup in the `block_totals` association list. -/
def lookupTotal : List (Nat × Int) → Nat → Option Int
  | [], _ => none
  | (k, w) :: rest, h => if k = h then some w else lookupTotal rest h

/-- The body of the height loop for one miner (main.rs lines 345-377):
skip uncached heights, skip non-representable heights, derive the address
(fatal on failure), and on a positive matched value update the per-miner
and global accumulators. -/
def minerHeightStep {KS : Type} (deriver : AddressDeriver KS) (cache : BlockCache) (ks : KS)
    (st : MinerScanState × GlobalScanState) (height : Nat) :
    Except String (MinerScanState × GlobalScanState) :=
  match cache.getBlock height with
  | none => .ok st
  | some block =>
    match nonHardenedFromIndex height with
    | none => .ok st
    | some index => do
      let encoded ← deriver.generate_transparent_address ks index
      let mv := matchedValue block.outputs encoded
      if 0 < mv then
        .ok
          ({ blocks := st.1.blocks + 1,
             total_value := st.1.total_value + mv,
             details := st.1.details ++
               [{ block_height := height, block_hash := block.hash, payout_address := encoded }] },
           { matched_blocks := insert height st.2.matched_blocks,
             block_totals := updateBlockTotal st.2.block_totals height mv })
      else .ok st

/-- One miner's pass over the heights (main.rs lines 339-387): decode the
key (fatal on failure), fold the height loop, and push the miner's summary
with `share_percent` still `0` (it is filled in by the second loop). -/
def minerScan {KS : Type} (deriver : AddressDeriver KS) (cache : BlockCache)
    (heights : List Nat) (miner : MinerEntry) (g : GlobalScanState) :
    Except String (MinerSummary × GlobalScanState) := do
  let ks ← deriver.new_from_ufvk miner.key
  let (ms, g1) ← heights.foldlM (minerHeightStep deriver cache ks)
    ({ blocks := 0, total_value := 0, details := [] }, g)
  pure
    ({ label := miner.label, matched_blocks := ms.blocks, total_value_zat := ms.total_value,
       total_value_wec := zats_to_wec ms.total_value, share_percent := 0,
       detailed_blocks := ms.details }, g1)

/-- The miner loop of `compute_statistics` (main.rs lines 335-387): fold
`minerScan` over the configured miners, threading the global state. -/
def statsFold {KS : Type} (deriver : AddressDeriver KS) (cfg : MinerStatsConfig)
    (cache : BlockCache) (heights : List Nat) :
    Except String (List MinerSummary × GlobalScanState) :=
  cfg.miners.foldlM
    (fun acc miner => do
      let (s, g1) ← minerScan deriver cache heights miner acc.2
      pure (acc.1 ++ [s], g1))
    ([], { matched_blocks := ∅, block_totals := [] })

/-- `coinbase_totals` (main.rs lines 325-333): the full coinbase total of
every in-range height that has a cached block. -/
def coinbaseTotals (cache : BlockCache) (heights : List Nat) : List (Nat × Int) :=
  heights.filterMap (fun h =>
    (cache.getBlock h).map (fun block => (h, (block.outputs.map (fun o => o.value_zat)).sum)))

/-- The assembly of the report from the fold's results (main.rs lines
389-429): fill in `share_percent`, compute the global and unmatched totals,
and build the `MinerStatsReport`. -/
def reportOf (cfg : MinerStatsConfig) (cache : BlockCache) (tip_height : Nat)
    (per_miner0 : List MinerSummary) (g : GlobalScanState) : MinerStatsReport :=
  let heights := rangeHeights cfg.start_height tip_height
  let total_blocks := heights.length
  let coinbase_totals := coinbaseTotals cache heights
  let per_miner := per_miner0.map (fun m =>
    { m with share_percent := percent_share_blocks m.matched_blocks total_blocks })
  let matched_value_zat : Int := (g.block_totals.map (fun p => p.2)).sum
  let unmatched_blocks := total_blocks - g.matched_blocks.card
  let unmatched_value_zat : Int :=
    ((coinbase_totals.filter (fun p => decide (p.1 ∉ g.matched_blocks))).map (fun p => p.2)).sum
  let unmatched_value_wec := zats_to_wec unmatched_value_zat
  let unmatched_share := percent_share_blocks unmatched_blocks total_blocks
  let total_value_zat := matched_value_zat + unmatched_value_zat
  let total_value_wec := zats_to_wec total_value_zat
  { start_height := cfg.start_height, end_height := tip_height,
    total_mined_blocks := g.matched_blocks.card,
    total_value_zat := total_value_zat, total_value_wec := total_value_wec,
    miners := per_miner.map (fun m =>
      { label := m.label, matched_blocks := m.matched_blocks,
        total_value_zat := m.total_value_zat, total_value_wec := m.total_value_wec,
        share_percent := m.share_percent }),
    detailed_miners := per_miner,
    unmatched :=
      { blocks := unmatched_blocks, total_value_zat := unmatched_value_zat,
        total_value_wec := unmatched_value_wec, share_percent := unmatched_share } }

/-- `compute_statistics` (main.rs lines 318-430): fold the miners over the
height range, then assemble the report. -/
def compute_statistics {KS : Type} (deriver : AddressDeriver KS) (cfg : MinerStatsConfig)
    (cache : BlockCache) (tip_height : Nat) : Except String MinerStatsReport := do
  let heights := rangeHeights cfg.start_height tip_height
  let (per_miner0, g) ← statsFold deriver cfg cache heights
  pure (reportOf cfg cache tip_height per_miner0 g)

/-! ## Cache persistence (main.rs lines 158-174)

`save` serializes the cache with `serde_json` and fully overwrites the file;
`load` returns the empty cache when no file exists and fails with a parse
error otherwise.  The JSON document is modelled as an AST; `BTreeMap<u32,_>`
keys are serialized as decimal strings (Rust's integer `Display`) and parsed
back with `u32::FromStr`, modelled by `natDecimal` / `parseNatKey`. -/

/-- The decimal digit character for `d < 10` (any larger argument is never
produced by `natToDigitsAux`). -/
def digitChar (d : Nat) : Char :=
  match d with
  | 0 => '0' | 1 => '1' | 2 => '2' | 3 => '3' | 4 => '4'
  | 5 => '5' | 6 => '6' | 7 => '7' | 8 => '8' | _ => '9'

/-- Decimal rendering of a natural number (Rust's integer `Display`). -/
def natToDigitsAux : Nat → List Char → List Char
  | n, acc =>
    if _h : n < 10 then digitChar n :: acc
    else natToDigitsAux (n / 10) (digitChar (n % 10) :: acc)
termination_by n _acc => n
decreasing_by exact Nat.div_lt_self (by omega) (by omega)

/-- The decimal string of a natural number. -/
def natDecimal (n : Nat) : String :=
  String.mk (natToDigitsAux n [])

/-- Fold a run of decimal digits into a number; any non-digit fails
(`u32::FromStr`). -/
def parseDigits : Nat → List Char → Option Nat
  | v, [] => some v
  | v, c :: cs => if c.isDigit then parseDigits (v * 10 + (c.toNat - 48)) cs else none

/-- Parse a decimal key string; the empty string fails. -/
def parseNatKey (s : String) : Option Nat :=
  match s.data with
  | [] => none
  | _ :: _ => parseDigits 0 s.data

/-- The number of decimal digits of a natural number. -/
def numDigits : Nat → Nat
  | n => if _h : n < 10 then 1 else numDigits (n / 10) + 1
termination_by n => n
decreasing_by exact Nat.div_lt_self (by omega) (by omega)

/-- A JSON document. -/
inductive Json where
  | null : Json
  | num : Int → Json
  | str : String → Json
  | arr : List Json → Json
  | obj : List (String × Json) → Json

/-- `serde_json` encoding of `CoinbaseOutput` (derived `Serialize`, fields
in declaration order). -/
def encodeOutput (o : CoinbaseOutput) : Json :=
  .obj [("value_zat", .num o.value_zat), ("addresses", .arr (o.addresses.map .str))]

/-- `serde_json` encoding of `CachedBlock`. -/
def encodeBlock (b : CachedBlock) : Json :=
  .obj [("height", .num b.height), ("hash", .str b.hash),
        ("outputs", .arr (b.outputs.map encodeOutput))]

/-- `serde_json` encoding of `BlockCache`: `last_tip` is `null` or a number,
`blocks` is an object whose keys are the heights rendered in decimal (in
increasing key order, as `BTreeMap` iterates). -/
def encodeCache (c : BlockCache) : Json :=
  .obj [("last_tip", match c.last_tip with | none => .null | some t => .num t),
        ("blocks", .obj (c.blocks.map (fun p => (natDecimal p.1, encodeBlock p.2))))]

/-- Decode a JSON string node. -/
def decodeString : Json → Option String
  | .str s => some s
  | _ => none

/-- Decode a `CoinbaseOutput` (partial inverse of `encodeOutput` on the
canonical documents `save` produces). -/
def decodeOutput : Json → Option CoinbaseOutput
  | .obj [("value_zat", .num v), ("addresses", .arr xs)] => do
    let addrs ← xs.mapM decodeString
    pure { value_zat := v, addresses := addrs }
  | _ => none

/-- Decode a `CachedBlock`. -/
def decodeBlock : Json → Option CachedBlock
  | .obj [("height", .num hn), ("hash", .str hs), ("outputs", .arr xs)] => do
    if hn < 0 then none else do
      let outs ← xs.mapM decodeOutput
      pure { height := hn.toNat, hash := hs, outputs := outs }
  | _ => none

/-- Decode the `blocks` object: parse each key, decode each block, and
insert into the map in document order (`BTreeMap` deserialization). -/
def decodeBlocksEntries (entries : List (String × Json)) : Option (List (Nat × CachedBlock)) :=
  entries.foldlM
    (fun m p => do
      let k ← parseNatKey p.1
      let v ← decodeBlock p.2
      pure (insertSorted k v m))
    []

/-- Decode `last_tip`. -/
def decodeTip : Json → Option (Option Nat)
  | .null => some none
  | .num t => if t < 0 then none else some (some t.toNat)
  | _ => none

/-- Decode a `BlockCache` document. -/
def decodeCache : Json → Option BlockCache
  | .obj [("last_tip", jt), ("blocks", .obj entries)] => do
    let tip ← decodeTip jt
    let blocks ← decodeBlocksEntries entries
    pure { last_tip := tip, blocks := blocks }
  | _ => none

/-- `BlockCache::save` (main.rs lines 169-173): serialize the full cache;
the file is fully overwritten with this document. -/
def BlockCache.save (c : BlockCache) : Json :=
  encodeCache c

/-- `BlockCache::load` (main.rs lines 159-167): an absent file (`none`)
gives the empty cache; an unparsable document is a fatal `CacheCorrupt`
error. -/
def BlockCache.load (file : Option Json) : Except String BlockCache :=
  match file with
  | none => .ok {}
  | some j =>
    match decodeCache j with
    | some c => .ok c
    | none => .error "parsing cache"

/-! ## Specification-side views of the statistics fold

These definitions re-express, per miner and per height, what one iteration
of the loops in `compute_statistics` observably does; the theorems below
prove the fold equal to them. -/

/-- The outcome of the height-loop body for one `(key store, height)` pair:
`.ok none` when the height is skipped (uncached, non-representable, or
non-positive matched value), `.ok (some (mv, d))` when the miner matches
with positive total `mv` and records detail `d`, `.error e` when the
address derivation fails (fatal). -/
def stepOutcome {KS : Type} (deriver : AddressDeriver KS) (cache : BlockCache) (ks : KS)
    (height : Nat) : Except String (Option (Int × MinerBlockDetail)) :=
  match cache.getBlock height with
  | none => .ok none
  | some block =>
    match nonHardenedFromIndex height with
    | none => .ok none
    | some index =>
      match deriver.generate_transparent_address ks index with
      | .error e => .error e
      | .ok encoded =>
        if 0 < matchedValue block.outputs encoded then
          .ok (some (matchedValue block.outputs encoded,
            { block_height := height, block_hash := block.hash, payout_address := encoded }))
        else .ok none

/-- The non-fatal part of `stepOutcome`. -/
def stepMatchKS {KS : Type} (deriver : AddressDeriver KS) (cache : BlockCache) (ks : KS)
    (height : Nat) : Option (Int × MinerBlockDetail) :=
  match stepOutcome deriver cache ks height with
  | .ok r => r
  | .error _ => none

/-- The heights at which a key store matches with positive value. -/
def matchedHeightsKS {KS : Type} (deriver : AddressDeriver KS) (cache : BlockCache) (ks : KS)
    (heights : List Nat) : List Nat :=
  heights.filter (fun h => (stepMatchKS deriver cache ks h).isSome)

/-- One key store's total matched value over a list of heights. -/
def minerValueKS {KS : Type} (deriver : AddressDeriver KS) (cache : BlockCache) (ks : KS)
    (heights : List Nat) : Int :=
  (heights.filterMap (fun h => (stepMatchKS deriver cache ks h).map Prod.fst)).sum

/-- One key store's detail records over a list of heights. -/
def minerDetailsKS {KS : Type} (deriver : AddressDeriver KS) (cache : BlockCache) (ks : KS)
    (heights : List Nat) : List MinerBlockDetail :=
  heights.filterMap (fun h => (stepMatchKS deriver cache ks h).map Prod.snd)

/-- The summary `minerScan` pushes for a miner (before `share_percent` is
filled in), as a function of the miner alone.  The first branch is never
reached on a successful run (a key-decode failure aborts the whole run). -/
def minerSummaryPre {KS : Type} (deriver : AddressDeriver KS) (cache : BlockCache)
    (heights : List Nat) (m : MinerEntry) : MinerSummary :=
  match deriver.new_from_ufvk m.key with
  | .error _ =>
    { label := m.label, matched_blocks := 0, total_value_zat := 0,
      total_value_wec := zats_to_wec 0, share_percent := 0, detailed_blocks := [] }
  | .ok ks =>
    { label := m.label,
      matched_blocks := (matchedHeightsKS deriver cache ks heights).length,
      total_value_zat := minerValueKS deriver cache ks heights,
      total_value_wec := zats_to_wec (minerValueKS deriver cache ks heights),
      share_percent := 0,
      detailed_blocks := minerDetailsKS deriver cache ks heights }

/-- A miner's positive match (value and detail) at a height, resolving the
key store from the miner's key. -/
def minerStepMatch {KS : Type} (deriver : AddressDeriver KS) (cache : BlockCache)
    (m : MinerEntry) (height : Nat) : Option (Int × MinerBlockDetail) :=
  match deriver.new_from_ufvk m.key with
  | .error _ => none
  | .ok ks => stepMatchKS deriver cache ks height

/-- A miner's full matched value summed over a list of heights. -/
def minerValueOf {KS : Type} (deriver : AddressDeriver KS) (cache : BlockCache)
    (heights : List Nat) (m : MinerEntry) : Int :=
  (heights.filterMap (fun h => (minerStepMatch deriver cache m h).map Prod.fst)).sum

/-- Maximum of two optional values (`none` is the absent entry). -/
def omaxO : Option Int → Option Int → Option Int
  | none, b => b
  | some a, none => some a
  | some a, some b => some (max a b)

/-- The full coinbase total of a height: sum of all output values of the
cached block, `0` when the height is not cached. -/
def coinbaseValueAt (cache : BlockCache) (h : Nat) : Int :=
  match cache.getBlock h with
  | some block => (block.outputs.map (fun o => o.value_zat)).sum
  | none => 0

/-- Rounding to two decimal places (the spec's `round(x, 2 decimal
places)`), over exact rationals. -/
def roundTo2 (x : ℚ) : ℚ :=
  ((round (x * 100) : ℤ) : ℚ) / 100

/-- A miner is processed without fatal error: its key decodes, and no
in-range derivation fails. -/
def minerOk {KS : Type} (deriver : AddressDeriver KS) (cache : BlockCache)
    (heights : List Nat) (m : MinerEntry) : Prop :=
  ∃ ks, deriver.new_from_ufvk m.key = .ok ks ∧
    ∀ h ∈ heights, ∃ o, stepOutcome deriver cache ks h = .ok o

/-! ## Concrete instances used by the witnesses and counterexamples -/

/-- An RPC oracle whose every call fails (an unreachable node). -/
def rpcDown : RpcOracle :=
  { getblockhash := fun _ => .error "transport failure",
    getblock := fun _ => .error "transport failure" }

/-- An RPC oracle that serves, for every height, a block with one coinbase
output of value 7 paid to `addrA`. -/
def rpcUp : RpcOracle :=
  { getblockhash := fun _ => .ok "hash0",
    getblock := fun s =>
      .ok { hash := s, height := 0,
            tx := [{ vout := [{ value_zat := 7,
                                script_pub_key := { addresses := some ["addrA"] } }] }] } }

/-- A deriver whose key store is the key itself and whose derived address at
every index is `"addr" ++ key`. -/
def exDeriver : AddressDeriver String :=
  { new_from_ufvk := fun k => .ok k,
    generate_transparent_address := fun ks _ => .ok (String.append "addr" ks) }

/-- A deriver that rejects every key. -/
def exBadKeyDeriver : AddressDeriver String :=
  { new_from_ufvk := fun _ => .error "decoding UFVK",
    generate_transparent_address := fun ks _ => .ok ks }

/-- A block at height 100 in which miners `A` and `B` both match (values 5
and 3), so the dedup policy keeps `max 5 3 = 5`. -/
def exBlockAB : CachedBlock :=
  { height := 100, hash := "h100",
    outputs := [{ value_zat := 5, addresses := ["addrA"] },
                { value_zat := 3, addresses := ["addrB"] }] }

/-- A block at height 100 with mixed-sign outputs both paid to `addrA`: one
output with positive value matches, yet the matched-value total is 0. -/
def exBlockMixed : CachedBlock :=
  { height := 100, hash := "h100",
    outputs := [{ value_zat := 1, addresses := ["addrA"] },
                { value_zat := -1, addresses := ["addrA"] }] }

/-- A block at height 102 matching no miner. -/
def exBlockOther : CachedBlock :=
  { height := 102, hash := "h102",
    outputs := [{ value_zat := 300000000, addresses := ["addrZ"] }] }

/-- A cache holding `exBlockAB` at 100 and `exBlockOther` at 102, with 101
in range but uncached. -/
def exCacheGap : BlockCache :=
  { last_tip := some 102, blocks := [(100, exBlockAB), (102, exBlockOther)] }

/-- A cache holding only the mixed-sign block at height 100. -/
def exCacheMixed : BlockCache :=
  { last_tip := some 100, blocks := [(100, exBlockMixed)] }

/-- Configuration with miners `A` and `B` from height 100. -/
def exCfgAB : MinerStatsConfig :=
  { start_height := 100, miners := [{ key := "A", label := "Miner A" },
                                    { key := "B", label := "Miner B" }] }

/-- Configuration with the single miner `A` from height 100. -/
def exCfgA : MinerStatsConfig :=
  { start_height := 100, miners := [{ key := "A", label := "Miner A" }] }

/-- The `block_totals` entry for one height after one miner's visit:
keep the previous value, or raise it to the matched value (`and_modify` /
`or_insert` with `max`). -/
def btAfter (prev : Option Int) (step : Option (Int × MinerBlockDetail)) : Option Int :=
  match step with
  | some (mv, _) =>
    match prev with
    | some w => some (max w mv)
    | none => some mv
  | none => prev

/-- The maximum of a list of integers (`none` for the empty list). -/
def listMaxO : List Int → Option Int
  | [] => none
  | a :: rest => omaxO (some a) (listMaxO rest)

/-- A miner's final summary (with `share_percent` filled in), as a function
of the miner alone. -/
def minerSummaryFinal {KS : Type} (deriver : AddressDeriver KS) (cache : BlockCache)
    (heights : List Nat) (total_blocks : Nat) (m : MinerEntry) : MinerSummary :=
  let s := minerSummaryPre deriver cache heights m
  { s with share_percent := percent_share_blocks s.matched_blocks total_blocks }

/-! ## Basic lemmas about the cache map and the fetch stage -/

/-- Reduction of `Except` bind on an error. -/
theorem except_bind_error {α β : Type} (e : String) (f : α → Except String β) :
    (Except.error e >>= f) = Except.error e := rfl

/-- Reduction of `Except` bind on a success. -/
theorem except_bind_ok {α β : Type} (a : α) (f : α → Except String β) :
    (Except.ok a >>= f : Except String β) = f a := rfl

/-- Reduction of `Except` map on an error. -/
theorem except_map_error {α β : Type} (g : α → β) (e : String) :
    (g <$> (Except.error e : Except String α)) = Except.error e := rfl

/-- Reduction of `Except` map on a success. -/
theorem except_map_ok {α β : Type} (g : α → β) (a : α) :
    (g <$> (Except.ok a : Except String α)) = Except.ok (g a) := rfl

/-- Reduction of `Except` pure. -/
theorem except_pure {α : Type} (a : α) :
    (pure a : Except String α) = Except.ok a := rfl

/-- Lookup after `BTreeMap::insert`. -/
theorem assocGet_insertSorted (k : Nat) (v : CachedBlock) (l : List (Nat × CachedBlock)) (h : Nat) :
    assocGet (insertSorted k v l) h = if k = h then some v else assocGet l h := by
  induction l with
  | nil => simp [insertSorted, assocGet]
  | cons p rest ih =>
    obtain ⟨k1, v1⟩ := p
    simp only [insertSorted]
    by_cases h1 : k < k1
    · rw [if_pos h1]
      simp only [assocGet]
    · rw [if_neg h1]
      by_cases h2 : k = k1
      · rw [if_pos h2]
        subst h2
        simp only [assocGet]
        by_cases e : k = h
        · rw [if_pos e, if_pos e]
        · rw [if_neg e, if_neg e, if_neg e]
      · rw [if_neg h2]
        simp only [assocGet, ih]
        by_cases e1 : k1 = h
        · have e2 : ¬ k = h := by omega
          rw [if_pos e1, if_neg e2, if_pos e1]
        · by_cases e2 : k = h
          · rw [if_neg e1, if_pos e2, if_pos e2]
          · rw [if_neg e1, if_neg e2, if_neg e2, if_neg e1]

/-- A successful `fetch_block` returns a record whose `height` field is the
requested height. -/
theorem fetch_block_ok_height (rpc : RpcOracle) (h : Nat) (b : CachedBlock)
    (hok : fetch_block rpc h = .ok b) : b.height = h := by
  unfold fetch_block at hok
  cases hh : rpc.getblockhash h with
  | error e => rw [hh, except_bind_error] at hok; cases hok
  | ok s =>
    rw [hh] at hok
    simp only [except_bind_ok] at hok
    cases hb : rpc.getblock s with
    | error e => rw [hb, except_bind_error] at hok; cases hok
    | ok blk =>
      rw [hb] at hok
      simp only [except_bind_ok, except_pure] at hok
      injection hok with hok
      rw [← hok]

/-- If any height in the batch fails to fetch, the whole collection fails. -/
theorem collectFetch_error_of_mem (rpc : RpcOracle) (l : List Nat) (h0 : Nat) (e0 : String)
    (hmem : h0 ∈ l) (hfail : fetch_block rpc h0 = .error e0) :
    ∃ e, collectFetch rpc l = .error e := by
  induction l with
  | nil => cases hmem
  | cons h rest ih =>
    rcases List.mem_cons.mp hmem with h_eq | h_rest
    · subst h_eq
      exact ⟨e0, by simp only [collectFetch, hfail, except_bind_error]⟩
    · cases hb : fetch_block rpc h with
      | error e => exact ⟨e, by simp only [collectFetch, hb, except_bind_error]⟩
      | ok b =>
        obtain ⟨e, he⟩ := ih h_rest
        exact ⟨e, by simp only [collectFetch, hb, except_bind_ok, he, except_bind_error]⟩

/-- Every block in a successfully collected batch was fetched at one of the
requested heights. -/
theorem collectFetch_ok_mem (rpc : RpcOracle) (l : List Nat) (bs : List CachedBlock)
    (hok : collectFetch rpc l = .ok bs) :
    ∀ b ∈ bs, ∃ h ∈ l, fetch_block rpc h = .ok b := by
  induction l generalizing bs with
  | nil =>
    simp only [collectFetch] at hok
    injection hok with hok
    subst hok
    intro b hb
    cases hb
  | cons h rest ih =>
    cases hb : fetch_block rpc h with
    | error e => simp only [collectFetch, hb, except_bind_error] at hok; cases hok
    | ok b0 =>
      cases hr : collectFetch rpc rest with
      | error e =>
        simp only [collectFetch, hb, except_bind_ok, hr, except_bind_error] at hok
        cases hok
      | ok bs0 =>
        simp only [collectFetch, hb, except_bind_ok, hr, except_pure] at hok
        injection hok with hok
        subst hok
        intro b hmem
        rcases List.mem_cons.mp hmem with h_eq | h_tail
        · exact ⟨h, List.mem_cons_self h rest, by rw [h_eq]; exact hb⟩
        · obtain ⟨h1, hh1, hf1⟩ := ih bs0 hr b h_tail
          exact ⟨h1, List.mem_cons_of_mem h hh1, hf1⟩

/-- A height in `missing` has no entry in the cache. -/
theorem missingHeights_getBlock (cache : BlockCache) (start tip h : Nat)
    (hmem : h ∈ missingHeights cache start tip) : cache.getBlock h = none := by
  unfold missingHeights at hmem
  have h2 := (List.mem_filter.mp hmem).2
  cases hgb : cache.getBlock h with
  | none => rfl
  | some b => simp [BlockCache.containsKey, hgb] at h2

/-- C1. Atomic batch failure: when the set of missing heights is non-empty
and the fetch of one of them fails, the fetch stage aborts with an error,
the cache file keeps its previous content, and afterwards the persisted
cache contains none of the batch's heights (the in-memory merge never ran:
the aborted outcome carries no cache at all). -/
theorem fetch_batch_atomic (rpc : RpcOracle) (cache : BlockCache) (start tip h0 : Nat)
    (e0 : String) (hmem : h0 ∈ missingHeights cache start tip)
    (hfail : fetch_block rpc h0 = .error e0) :
    (∃ e, (fetchStage rpc cache start tip cache).1 = .error e) ∧
    (fetchStage rpc cache start tip cache).2 = cache ∧
    ∀ h ∈ missingHeights cache start tip,
      (fetchStage rpc cache start tip cache).2.getBlock h = none := by
  have hne : missingHeights cache start tip ≠ [] := List.ne_nil_of_mem hmem
  have hempty : (missingHeights cache start tip).isEmpty = false := by
    simpa [List.isEmpty_iff] using hne
  obtain ⟨e, he⟩ := collectFetch_error_of_mem rpc _ h0 e0 hmem hfail
  refine ⟨⟨e, ?_⟩, ?_, ?_⟩
  · simp [fetchStage, hempty, he]
  · simp [fetchStage, hempty, he]
  · intro h hh
    have hd : (fetchStage rpc cache start tip cache).2 = cache := by
      simp [fetchStage, hempty, he]
    rw [hd]
    exact missingHeights_getBlock cache start tip h hh

/-- Witness for C1: an unreachable node, the empty cache, range `[0, 0]`. -/
theorem fetch_batch_atomic_witness :
    (∃ e, (fetchStage rpcDown {} 0 0 {}).1 = .error e) ∧
    (fetchStage rpcDown {} 0 0 {}).2 = ({} : BlockCache) ∧
    ∀ h ∈ missingHeights {} 0 0, (fetchStage rpcDown {} 0 0 {}).2.getBlock h = none :=
  fetch_batch_atomic rpcDown {} 0 0 0 "transport failure" (by decide) rfl

/-- Folding inserts whose heights all differ from `h` leaves the lookup at
`h` unchanged. -/
theorem foldl_insertBlock_getBlock_ne (bs : List CachedBlock) (c : BlockCache) (h : Nat)
    (hne : ∀ b ∈ bs, b.height ≠ h) :
    (bs.foldl (fun c b => c.insertBlock b.height b) c).getBlock h = c.getBlock h := by
  induction bs generalizing c with
  | nil => rfl
  | cons b rest ih =>
    rw [List.foldl_cons, ih _ (fun b2 hb => hne b2 (List.mem_cons_of_mem _ hb))]
    simp only [BlockCache.getBlock, BlockCache.insertBlock, assocGet_insertSorted]
    rw [if_neg (hne b (List.mem_cons_self _ _))]

/-- After folding inserts, the lookup at `h` is either unchanged or `h` is
one of the inserted heights. -/
theorem foldl_insertBlock_getBlock_cases (bs : List CachedBlock) (c : BlockCache) (h : Nat) :
    (bs.foldl (fun c b => c.insertBlock b.height b) c).getBlock h = c.getBlock h ∨
      ∃ b ∈ bs, b.height = h := by
  induction bs generalizing c with
  | nil => exact Or.inl rfl
  | cons b rest ih =>
    rw [List.foldl_cons]
    rcases ih (c.insertBlock b.height b) with heq | ⟨b2, hb2, hh2⟩
    · by_cases e : b.height = h
      · exact Or.inr ⟨b, List.mem_cons_self _ _, e⟩
      · refine Or.inl ?_
        rw [heq]
        simp only [BlockCache.getBlock, BlockCache.insertBlock, assocGet_insertSorted]
        rw [if_neg e]
    · exact Or.inr ⟨b2, List.mem_cons_of_mem _ hb2, hh2⟩

/-- C9. Cached blocks are immutable once inserted: a successful fetch stage
keeps every pre-existing height's block unchanged, changes lookups only at
heights that were missing, and only updates `last_tip`.  (The statistics
phase takes the cache by shared reference and is modelled as a pure
function of it, so it cannot mutate the cache at all.) -/
theorem fetch_preserves_cached (rpc : RpcOracle) (cache : BlockCache) (start tip : Nat)
    (disk mem : BlockCache)
    (hok : (fetchStage rpc cache start tip disk).1 = .ok mem) :
    (∀ h b, cache.getBlock h = some b → mem.getBlock h = some b) ∧
    (∀ h, mem.getBlock h = cache.getBlock h ∨ h ∈ missingHeights cache start tip) ∧
    mem.last_tip = some tip := by
  by_cases hempty : (missingHeights cache start tip).isEmpty = false
  · cases hcol : collectFetch rpc (missingHeights cache start tip) with
    | error e => simp [fetchStage, hempty, hcol] at hok
    | ok fetched =>
      have hhf : ∀ b ∈ fetched, b.height ∈ missingHeights cache start tip := by
        intro b hb
        obtain ⟨h1, hh1, hf1⟩ := collectFetch_ok_mem rpc _ fetched hcol b hb
        rw [fetch_block_ok_height rpc h1 b hf1]
        exact hh1
      have hmem : mem =
          { fetched.foldl (fun c b => c.insertBlock b.height b) cache with
            last_tip := some tip } := by
        simp [fetchStage, hempty, hcol] at hok
        exact hok.symm
      subst hmem
      refine ⟨?_, ?_, rfl⟩
      · intro h b hcb
        have hne : ∀ b2 ∈ fetched, b2.height ≠ h := by
          intro b2 hb2 e
          have hnone := missingHeights_getBlock cache start tip _ (hhf b2 hb2)
          rw [e, hcb] at hnone
          cases hnone
        have := foldl_insertBlock_getBlock_ne fetched cache h hne
        rw [← this] at hcb
        exact hcb
      · intro h
        rcases foldl_insertBlock_getBlock_cases fetched cache h with heq | ⟨b2, hb2, hh2⟩
        · exact Or.inl heq
        · exact Or.inr (hh2 ▸ hhf b2 hb2)
  · have hempty2 : (missingHeights cache start tip).isEmpty = true := by
      simpa using hempty
    by_cases htip : cache.last_tip ≠ some tip
    · have hmem : mem = { cache with last_tip := some tip } := by
        simp [fetchStage, hempty2, htip] at hok
        exact hok.symm
      subst hmem
      exact ⟨fun h b hcb => hcb, fun h => Or.inl rfl, rfl⟩
    · have hmem : mem = cache := by
        simp [fetchStage, hempty2, htip] at hok
        exact hok.symm
      subst hmem
      refine ⟨fun h b hcb => hcb, fun h => Or.inl rfl, ?_⟩
      simpa using htip

/-- Witness for C9: a working node, a cache holding heights 100 and 102,
range `[100, 102]` (height 101 is fetched and merged). -/
theorem fetch_preserves_cached_witness :
    (∀ h b, exCacheGap.getBlock h = some b →
      (BlockCache.mk (some 102)
        [(100, exBlockAB),
         (101, { height := 101, hash := "hash0",
                 outputs := [{ value_zat := 7, addresses := ["addrA"] }] }),
         (102, exBlockOther)]).getBlock h = some b) ∧
    (∀ h, (BlockCache.mk (some 102)
        [(100, exBlockAB),
         (101, { height := 101, hash := "hash0",
                 outputs := [{ value_zat := 7, addresses := ["addrA"] }] }),
         (102, exBlockOther)]).getBlock h = exCacheGap.getBlock h ∨
      h ∈ missingHeights exCacheGap 100 102) ∧
    (BlockCache.mk (some 102)
        [(100, exBlockAB),
         (101, { height := 101, hash := "hash0",
                 outputs := [{ value_zat := 7, addresses := ["addrA"] }] }),
         (102, exBlockOther)]).last_tip = some 102 :=
  fetch_preserves_cached rpcUp exCacheGap 100 102 exCacheGap _ (by rfl)

/-! ## Cache round-trip (C5) -/

/-- Reduction of `Option` bind on `some`. -/
theorem option_bind_some {α β : Type} (a : α) (f : α → Option β) :
    (some a >>= f) = f a := rfl

/-- Reduction of `Option` pure. -/
theorem option_pure {α : Type} (a : α) : (pure a : Option α) = some a := rfl

/-- `digitChar` of a digit is a decimal digit character. -/
theorem digitChar_isDigit (d : Nat) (h : d < 10) : (digitChar d).isDigit = true := by
  interval_cases d <;> decide

/-- Code point of `digitChar` of a digit. -/
theorem digitChar_toNat (d : Nat) (h : d < 10) : (digitChar d).toNat = 48 + d := by
  interval_cases d <;> decide

/-- The decimal rendering is never empty. -/
theorem natToDigitsAux_ne_nil (n : Nat) (acc : List Char) : natToDigitsAux n acc ≠ [] := by
  induction n using Nat.strong_induction_on generalizing acc with
  | _ n ih =>
    rw [natToDigitsAux]
    split_ifs with h
    · simp
    · exact ih (n / 10) (Nat.div_lt_self (by omega) (by omega)) _

/-- Parsing the decimal rendering of `n` prepended to `acc` accumulates
`n` under the already-parsed prefix value `v`. -/
theorem parseDigits_natToDigitsAux (n : Nat) : ∀ (v : Nat) (acc : List Char),
    parseDigits v (natToDigitsAux n acc) = parseDigits (v * 10 ^ numDigits n + n) acc := by
  induction n using Nat.strong_induction_on with
  | _ n ih =>
    intro v acc
    rw [natToDigitsAux, numDigits]
    split_ifs with h
    · simp only [parseDigits, digitChar_isDigit n h, if_true]
      rw [digitChar_toNat n h]
      congr 1
      rw [pow_one]
      omega
    · have hlt : n / 10 < n := Nat.div_lt_self (by omega) (by omega)
      rw [ih (n / 10) hlt v (digitChar (n % 10) :: acc)]
      have h10 : n % 10 < 10 := Nat.mod_lt _ (by omega)
      simp only [parseDigits, digitChar_isDigit _ h10, if_true]
      rw [digitChar_toNat _ h10]
      congr 1
      rw [pow_succ, ← Nat.mul_assoc]
      generalize v * 10 ^ numDigits (n / 10) = w
      omega

/-- Round trip of the decimal key codec. -/
theorem parseNatKey_natDecimal (n : Nat) : parseNatKey (natDecimal n) = some n := by
  unfold parseNatKey natDecimal
  cases hne : natToDigitsAux n [] with
  | nil => exact absurd hne (natToDigitsAux_ne_nil n [])
  | cons c cs =>
    show parseDigits 0 (c :: cs) = some n
    rw [← hne, parseDigits_natToDigitsAux n 0 []]
    simp [parseDigits]

/-- Decoding an encoded address list (the inner loop of `List.mapM`). -/
theorem mapM_loop_decodeString (l : List String) : ∀ acc : List String,
    List.mapM.loop decodeString (l.map Json.str) acc = some (acc.reverse ++ l) := by
  induction l with
  | nil => intro acc; simp [List.mapM.loop]
  | cons a rest ih =>
    intro acc
    simp only [List.map_cons, List.mapM.loop, decodeString, option_bind_some]
    rw [ih (a :: acc)]
    simp

/-- Decoding an encoded address list. -/
theorem mapM_decodeString (l : List String) :
    (l.map Json.str).mapM decodeString = some l := by
  show List.mapM.loop decodeString (l.map Json.str) [] = some l
  rw [mapM_loop_decodeString l []]
  rfl

/-- Decoding an encoded output. -/
theorem decodeOutput_encodeOutput (o : CoinbaseOutput) :
    decodeOutput (encodeOutput o) = some o := by
  show (do
    let addrs ← (o.addresses.map Json.str).mapM decodeString
    pure ({ value_zat := o.value_zat, addresses := addrs } : CoinbaseOutput)) = some o
  rw [mapM_decodeString o.addresses]
  rfl

/-- Decoding an encoded output list (the inner loop of `List.mapM`). -/
theorem mapM_loop_decodeOutput (l : List CoinbaseOutput) : ∀ acc : List CoinbaseOutput,
    List.mapM.loop decodeOutput (l.map encodeOutput) acc = some (acc.reverse ++ l) := by
  induction l with
  | nil => intro acc; simp [List.mapM.loop]
  | cons a rest ih =>
    intro acc
    simp only [List.map_cons, List.mapM.loop, decodeOutput_encodeOutput, option_bind_some]
    rw [ih (a :: acc)]
    simp

/-- Decoding an encoded output list. -/
theorem mapM_decodeOutput (l : List CoinbaseOutput) :
    (l.map encodeOutput).mapM decodeOutput = some l := by
  show List.mapM.loop decodeOutput (l.map encodeOutput) [] = some l
  rw [mapM_loop_decodeOutput l []]
  rfl

/-- Decoding an encoded block. -/
theorem decodeBlock_encodeBlock (b : CachedBlock) :
    decodeBlock (encodeBlock b) = some b := by
  show (if ((b.height : Int) < 0) then none
    else do
      let outs ← (b.outputs.map encodeOutput).mapM decodeOutput
      pure ({ height := (b.height : Int).toNat, hash := b.hash, outputs := outs } :
        CachedBlock)) = some b
  rw [if_neg (by omega : ¬ ((b.height : Int) < 0)), mapM_decodeOutput b.outputs]
  show some ({ height := (b.height : Int).toNat, hash := b.hash, outputs := b.outputs } :
    CachedBlock) = some b
  rw [Int.toNat_natCast]

/-- Inserting a key above every key of a sorted map appends at the end. -/
theorem insertSorted_append (k : Nat) (v : CachedBlock) (m : List (Nat × CachedBlock))
    (hlt : ∀ p ∈ m, p.1 < k) :
    insertSorted k v m = m ++ [(k, v)] := by
  induction m with
  | nil => rfl
  | cons p rest ih =>
    obtain ⟨k1, v1⟩ := p
    have h1 : k1 < k := hlt (k1, v1) (List.mem_cons_self _ _)
    simp only [insertSorted]
    rw [if_neg (by omega), if_neg (by omega),
      ih (fun q hq => hlt q (List.mem_cons_of_mem _ hq))]
    rfl

/-- Decoding the encoded `blocks` object of a sorted cache. -/
theorem decodeBlocksEntries_encode (l : List (Nat × CachedBlock)) :
    ∀ (m : List (Nat × CachedBlock)), (m ++ l).Pairwise (fun a b => a.1 < b.1) →
    (l.map (fun p => (natDecimal p.1, encodeBlock p.2))).foldlM
      (fun m p => do
        let k ← parseNatKey p.1
        let v ← decodeBlock p.2
        pure (insertSorted k v m)) m = some (m ++ l) := by
  induction l with
  | nil => intro m _; simp
  | cons p rest ih =>
    intro m h
    obtain ⟨k0, v0⟩ := p
    have hlt : ∀ q ∈ m, q.1 < k0 := by
      intro q hq
      exact (List.pairwise_append.mp h).2.2 q hq (k0, v0) (List.mem_cons_self _ _)
    have h2 : ((m ++ [(k0, v0)]) ++ rest).Pairwise (fun a b => a.1 < b.1) := by
      rw [List.append_assoc, List.singleton_append]
      exact h
    simp only [List.map_cons, List.foldlM_cons, parseNatKey_natDecimal,
      decodeBlock_encodeBlock, option_bind_some]
    rw [option_pure (insertSorted k0 v0 m), option_bind_some]
    rw [insertSorted_append k0 v0 m hlt]
    rw [ih (m ++ [(k0, v0)]) h2]
    simp

/-- C5. Cache persistence round-trip: for every `BlockCache` value (its
`blocks` map strictly sorted by key, the `BTreeMap` representation
invariant), saving and loading yields the original cache. -/
theorem cache_load_save_roundtrip (c : BlockCache)
    (hsorted : c.blocks.Pairwise (fun a b => a.1 < b.1)) :
    BlockCache.load (some (BlockCache.save c)) = .ok c := by
  obtain ⟨lt, blks⟩ := c
  have hblocks : decodeBlocksEntries
      (blks.map (fun p => (natDecimal p.1, encodeBlock p.2))) = some blks := by
    unfold decodeBlocksEntries
    have := decodeBlocksEntries_encode blks [] (by simpa using hsorted)
    simpa using this
  cases lt with
  | none =>
    have hdec : decodeCache (Json.obj [("last_tip", Json.null),
        ("blocks", Json.obj (blks.map (fun p => (natDecimal p.1, encodeBlock p.2))))]) =
        some (BlockCache.mk none blks) := by
      show (do
        let tip ← decodeTip Json.null
        let blocks ← decodeBlocksEntries
          (blks.map (fun p => (natDecimal p.1, encodeBlock p.2)))
        pure ({ last_tip := tip, blocks := blocks } : BlockCache)) = some (BlockCache.mk none blks)
      rw [show decodeTip Json.null = some none from rfl]
      rw [option_bind_some, hblocks]
      rfl
    show (match decodeCache (Json.obj [("last_tip", Json.null),
        ("blocks", Json.obj (blks.map (fun p => (natDecimal p.1, encodeBlock p.2))))]) with
      | some c2 => Except.ok c2
      | none => Except.error "parsing cache") = Except.ok (BlockCache.mk none blks)
    rw [hdec]
  | some t =>
    have htip : decodeTip (Json.num (t : Int)) = some (some t) := by
      show (if ((t : Int) < 0) then none else some (some ((t : Int)).toNat)) = some (some t)
      rw [if_neg (by omega : ¬ ((t : Int) < 0)), Int.toNat_natCast]
    have hdec : decodeCache (Json.obj [("last_tip", Json.num (t : Int)),
        ("blocks", Json.obj (blks.map (fun p => (natDecimal p.1, encodeBlock p.2))))]) =
        some (BlockCache.mk (some t) blks) := by
      show (do
        let tip ← decodeTip (Json.num (t : Int))
        let blocks ← decodeBlocksEntries
          (blks.map (fun p => (natDecimal p.1, encodeBlock p.2)))
        pure ({ last_tip := tip, blocks := blocks } : BlockCache)) =
        some (BlockCache.mk (some t) blks)
      rw [htip]
      rw [option_bind_some, hblocks]
      rfl
    show (match decodeCache (Json.obj [("last_tip", Json.num (t : Int)),
        ("blocks", Json.obj (blks.map (fun p => (natDecimal p.1, encodeBlock p.2))))]) with
      | some c2 => Except.ok c2
      | none => Except.error "parsing cache") = Except.ok (BlockCache.mk (some t) blks)
    rw [hdec]

/-- Witness for C5: the empty cache and a two-entry cache. -/
theorem cache_load_save_roundtrip_witness :
    BlockCache.load (some (BlockCache.save {})) = .ok ({} : BlockCache) ∧
    (exCacheGap.blocks.Pairwise (fun a b => a.1 < b.1) ∧
      BlockCache.load (some (BlockCache.save exCacheGap)) = .ok exCacheGap) :=
  ⟨cache_load_save_roundtrip {} (by decide),
   ⟨by decide, cache_load_save_roundtrip exCacheGap (by decide)⟩⟩

/-! ## Characterization of the statistics fold -/

/-- The height-loop body as a function of `stepOutcome`. -/
theorem minerHeightStep_eq {KS : Type} (deriver : AddressDeriver KS) (cache : BlockCache)
    (ks : KS) (st : MinerScanState × GlobalScanState) (h : Nat) :
    minerHeightStep deriver cache ks st h =
      match stepOutcome deriver cache ks h with
      | .error e => .error e
      | .ok none => .ok st
      | .ok (some (mv, d)) =>
        .ok ({ blocks := st.1.blocks + 1, total_value := st.1.total_value + mv,
               details := st.1.details ++ [d] },
             { matched_blocks := insert h st.2.matched_blocks,
               block_totals := updateBlockTotal st.2.block_totals h mv }) := by
  cases hb : cache.getBlock h with
  | none => simp only [minerHeightStep, stepOutcome, hb]
  | some block =>
    cases hi : nonHardenedFromIndex h with
    | none => simp only [minerHeightStep, stepOutcome, hb, hi]
    | some index =>
      cases hd : deriver.generate_transparent_address ks index with
      | error e => simp only [minerHeightStep, stepOutcome, hb, hi, hd, except_bind_error]
      | ok encoded =>
        simp only [minerHeightStep, stepOutcome, hb, hi, hd, except_bind_ok]
        by_cases hmv : 0 < matchedValue block.outputs encoded
        · simp only [if_pos hmv]
        · simp only [if_neg hmv]

/-- `lookupTotal` after `updateBlockTotal`. -/
theorem lookupTotal_updateBlockTotal (bt : List (Nat × Int)) (h : Nat) (mv : Int) (x : Nat) :
    lookupTotal (updateBlockTotal bt h mv) x =
      if h = x then
        match lookupTotal bt x with
        | some w => some (max w mv)
        | none => some mv
      else lookupTotal bt x := by
  induction bt with
  | nil =>
    by_cases e : h = x <;> simp [updateBlockTotal, lookupTotal, e]
  | cons p rest ih =>
    obtain ⟨k, w⟩ := p
    by_cases e1 : k = h
    · subst e1
      by_cases e2 : k = x <;> simp [updateBlockTotal, lookupTotal, e2]
    · by_cases e2 : k = x
      · have e3 : ¬ h = x := fun hc => e1 (by omega)
        subst e2
        simp [updateBlockTotal, lookupTotal, e1, e3]
      · simp [updateBlockTotal, lookupTotal, e1, e2, ih]

/-- A positive match has a positive value and carries its height in the
detail record. -/
theorem stepMatchKS_some (KS : Type) (deriver : AddressDeriver KS) (cache : BlockCache)
    (ks : KS) (h : Nat) (mv : Int) (d : MinerBlockDetail)
    (hs : stepMatchKS deriver cache ks h = some (mv, d)) :
    0 < mv ∧ d.block_height = h ∧ (cache.getBlock h).isSome = true ∧ h < 2 ^ 31 := by
  cases hb : cache.getBlock h with
  | none => simp only [stepMatchKS, stepOutcome, hb] at hs; simp at hs
  | some block =>
    cases hi : nonHardenedFromIndex h with
    | none => simp only [stepMatchKS, stepOutcome, hb, hi] at hs; simp at hs
    | some index =>
      have hlt : h < 2 ^ 31 := by
        by_cases hc : h < 2 ^ 31
        · exact hc
        · rw [nonHardenedFromIndex, if_neg hc] at hi; cases hi
      cases hd : deriver.generate_transparent_address ks index with
      | error e => simp only [stepMatchKS, stepOutcome, hb, hi, hd] at hs; simp at hs
      | ok encoded =>
        simp only [stepMatchKS, stepOutcome, hb, hi, hd] at hs
        by_cases hmv : 0 < matchedValue block.outputs encoded
        · rw [if_pos hmv] at hs
          simp only [Option.some.injEq, Prod.mk.injEq] at hs
          obtain ⟨hs1, hs2⟩ := hs
          subst hs1
          subst hs2
          exact ⟨hmv, rfl, rfl, hlt⟩
        · rw [if_neg hmv] at hs
          cases hs

/-- Characterization of one miner's height loop on a duplicate-free height
list: the per-miner accumulators collect exactly the positive matches, the
matched-height set grows by the matched heights, and each `block_totals`
entry is raised by `btAfter`. -/
theorem heightFold_ok {KS : Type} (deriver : AddressDeriver KS) (cache : BlockCache) (ks : KS) :
    ∀ (heights : List Nat), heights.Nodup →
    ∀ (st r : MinerScanState × GlobalScanState),
    heights.foldlM (minerHeightStep deriver cache ks) st = .ok r →
    r.1.blocks = st.1.blocks + (matchedHeightsKS deriver cache ks heights).length ∧
    r.1.total_value = st.1.total_value + minerValueKS deriver cache ks heights ∧
    r.1.details = st.1.details ++ minerDetailsKS deriver cache ks heights ∧
    (∀ x, x ∈ r.2.matched_blocks ↔
      x ∈ st.2.matched_blocks ∨ x ∈ matchedHeightsKS deriver cache ks heights) ∧
    (∀ x, lookupTotal r.2.block_totals x =
      if x ∈ heights then
        btAfter (lookupTotal st.2.block_totals x) (stepMatchKS deriver cache ks x)
      else lookupTotal st.2.block_totals x) := by
  intro heights
  induction heights with
  | nil =>
    intro _ st r hok
    simp only [List.foldlM_nil] at hok
    have hr : st = r := by
      injection hok
    subst hr
    refine ⟨by simp [matchedHeightsKS], by simp [minerValueKS], by simp [minerDetailsKS],
      fun x => ?_, fun x => by simp⟩
    simp [matchedHeightsKS]
  | cons x rest ih =>
    intro hnd st r hok
    have hx : x ∉ rest := (List.nodup_cons.mp hnd).1
    have hndr : rest.Nodup := (List.nodup_cons.mp hnd).2
    rw [List.foldlM_cons] at hok
    cases ho : stepOutcome deriver cache ks x with
    | error e =>
      have hstep : minerHeightStep deriver cache ks st x = .error e := by
        rw [minerHeightStep_eq, ho]
      rw [hstep, except_bind_error] at hok
      cases hok
    | ok o =>
      cases o with
      | none =>
        have hstep : minerHeightStep deriver cache ks st x = .ok st := by
          rw [minerHeightStep_eq, ho]
        rw [hstep, except_bind_ok] at hok
        obtain ⟨ib, iv, idt, im, ibt⟩ := ih hndr st r hok
        have hsm : stepMatchKS deriver cache ks x = none := by
          unfold stepMatchKS
          rw [ho]
        refine ⟨?_, ?_, ?_, ?_, ?_⟩
        · rw [ib]; simp [matchedHeightsKS, hsm]
        · rw [iv]; simp [minerValueKS, hsm]
        · rw [idt]; simp [minerDetailsKS, hsm]
        · intro x2
          rw [im x2]
          simp [matchedHeightsKS, hsm]
        · intro x2
          rw [ibt x2]
          by_cases e : x2 = x
          · subst e
            simp [hx, hsm, btAfter]
          · simp [List.mem_cons, e]
      | some p =>
        obtain ⟨mv, d⟩ := p
        have hstep : minerHeightStep deriver cache ks st x =
            .ok ({ blocks := st.1.blocks + 1, total_value := st.1.total_value + mv,
                   details := st.1.details ++ [d] },
                 { matched_blocks := insert x st.2.matched_blocks,
                   block_totals := updateBlockTotal st.2.block_totals x mv }) := by
          rw [minerHeightStep_eq, ho]
        rw [hstep, except_bind_ok] at hok
        obtain ⟨ib, iv, idt, im, ibt⟩ := ih hndr _ r hok
        have hsm : stepMatchKS deriver cache ks x = some (mv, d) := by
          unfold stepMatchKS
          rw [ho]
        refine ⟨?_, ?_, ?_, ?_, ?_⟩
        · rw [ib]; simp [matchedHeightsKS, hsm]; omega
        · rw [iv]; simp [minerValueKS, hsm]; omega
        · rw [idt]; simp [minerDetailsKS, hsm]
        · intro x2
          rw [im x2]
          simp only [Finset.mem_insert]
          simp [matchedHeightsKS, hsm]
          tauto
        · intro x2
          rw [ibt x2]
          simp only [lookupTotal_updateBlockTotal]
          by_cases e : x2 = x
          · subst e
            simp [hx, hsm, btAfter]
          · have e2 : ¬ x = x2 := fun hc => e hc.symm
            rw [if_neg e2]
            simp [List.mem_cons, e]

/-- Membership in a key store's matched heights. -/
theorem mem_matchedHeightsKS {KS : Type} (deriver : AddressDeriver KS) (cache : BlockCache)
    (ks : KS) (heights : List Nat) (x : Nat) :
    x ∈ matchedHeightsKS deriver cache ks heights ↔
      x ∈ heights ∧ (stepMatchKS deriver cache ks x).isSome = true := by
  simp [matchedHeightsKS, List.mem_filter]

/-- Characterization of `minerScan` on success: the summary is a function
of the miner alone, and the global state evolves pointwise. -/
theorem minerScan_ok {KS : Type} (deriver : AddressDeriver KS) (cache : BlockCache)
    (heights : List Nat) (hnd : heights.Nodup) (m : MinerEntry) (g : GlobalScanState)
    (s : MinerSummary) (g1 : GlobalScanState)
    (hok : minerScan deriver cache heights m g = .ok (s, g1)) :
    s = minerSummaryPre deriver cache heights m ∧
    ∃ ks, deriver.new_from_ufvk m.key = .ok ks ∧
      (∀ x, x ∈ g1.matched_blocks ↔
        x ∈ g.matched_blocks ∨ x ∈ matchedHeightsKS deriver cache ks heights) ∧
      (∀ x, lookupTotal g1.block_totals x =
        if x ∈ heights then
          btAfter (lookupTotal g.block_totals x) (stepMatchKS deriver cache ks x)
        else lookupTotal g.block_totals x) := by
  unfold minerScan at hok
  cases hk : deriver.new_from_ufvk m.key with
  | error e => rw [hk, except_bind_error] at hok; cases hok
  | ok ks =>
    rw [hk] at hok
    simp only [except_bind_ok] at hok
    cases hf : heights.foldlM (minerHeightStep deriver cache ks)
        ({ blocks := 0, total_value := 0, details := [] }, g) with
    | error e => rw [hf, except_bind_error] at hok; cases hok
    | ok msg2 =>
      obtain ⟨ms, g2⟩ := msg2
      rw [hf] at hok
      simp only [except_bind_ok, except_pure] at hok
      injection hok with hok
      rw [Prod.mk.injEq] at hok
      obtain ⟨hok1, hok2⟩ := hok
      subst hok2
      obtain ⟨ib, iv, idt, im, ibt⟩ :=
        heightFold_ok deriver cache ks heights hnd _ _ hf
      refine ⟨?_, ks, rfl, fun x => im x, fun x => ibt x⟩
      rw [← hok1]
      simp only [minerSummaryPre, hk]
      have hb2 : ms.blocks = (matchedHeightsKS deriver cache ks heights).length := by
        simpa using ib
      have hv2 : ms.total_value = minerValueKS deriver cache ks heights := by
        simpa using iv
      have hd2 : ms.details = minerDetailsKS deriver cache ks heights := by
        simpa using idt
      rw [hb2, hv2, hd2]

/-- Characterization of the miner loop with an arbitrary starting
accumulator: the summaries are a map over the miners, the matched-height
set is the union of each miner's matched heights, and each `block_totals`
entry is a fold of `btAfter` over the miners. -/
theorem statsFoldAux {KS : Type} (deriver : AddressDeriver KS) (cache : BlockCache)
    (heights : List Nat) (hnd : heights.Nodup) :
    ∀ (miners : List MinerEntry) (pm0 : List MinerSummary) (g0 : GlobalScanState)
      (pm : List MinerSummary) (g : GlobalScanState),
    miners.foldlM
      (fun acc miner => do
        let (s, g1) ← minerScan deriver cache heights miner acc.2
        pure (acc.1 ++ [s], g1)) (pm0, g0) = .ok (pm, g) →
    pm = pm0 ++ miners.map (minerSummaryPre deriver cache heights) ∧
    (∀ x, x ∈ g.matched_blocks ↔ x ∈ g0.matched_blocks ∨
      ∃ m ∈ miners, x ∈ heights ∧ (minerStepMatch deriver cache m x).isSome = true) ∧
    (∀ x, lookupTotal g.block_totals x =
      if x ∈ heights then
        miners.foldl (fun acc m => btAfter acc (minerStepMatch deriver cache m x))
          (lookupTotal g0.block_totals x)
      else lookupTotal g0.block_totals x) := by
  intro miners
  induction miners with
  | nil =>
    intro pm0 g0 pm g hok
    simp only [List.foldlM_nil] at hok
    injection hok with hok
    rw [Prod.mk.injEq] at hok
    obtain ⟨h1, h2⟩ := hok
    subst h1
    subst h2
    exact ⟨by simp, fun x => by simp, fun x => by by_cases e : x ∈ heights <;> simp [e]⟩
  | cons m rest ih =>
    intro pm0 g0 pm g hok
    simp only [List.foldlM_cons] at hok
    cases hsc : minerScan deriver cache heights m g0 with
    | error e => rw [hsc, except_bind_error] at hok; cases hok
    | ok sg1 =>
      obtain ⟨s, g1⟩ := sg1
      rw [hsc] at hok
      simp only [except_bind_ok, except_pure] at hok
      obtain ⟨hs_eq, ks, hk, hmm, hbt⟩ :=
        minerScan_ok deriver cache heights hnd m g0 s g1 hsc
      obtain ⟨ipm, imem, ibt2⟩ := ih (pm0 ++ [s]) g1 pm g hok
      have hstep_eq : ∀ x2, minerStepMatch deriver cache m x2 = stepMatchKS deriver cache ks x2 := by
        intro x2
        unfold minerStepMatch
        rw [hk]
      refine ⟨?_, ?_, ?_⟩
      · rw [ipm, hs_eq]
        simp
      · intro x
        rw [imem x, hmm x, mem_matchedHeightsKS, ← hstep_eq x]
        constructor
        · rintro ((h0 | ⟨hx, hsome⟩) | ⟨m2, hm2, hp⟩)
          · exact Or.inl h0
          · exact Or.inr ⟨m, List.mem_cons_self _ _, hx, hsome⟩
          · exact Or.inr ⟨m2, List.mem_cons_of_mem _ hm2, hp⟩
        · rintro (h0 | ⟨m2, hm2, hp⟩)
          · exact Or.inl (Or.inl h0)
          · rcases List.mem_cons.mp hm2 with he | hm3
            · subst he
              exact Or.inl (Or.inr hp)
            · exact Or.inr ⟨m2, hm3, hp⟩
      · intro x
        rw [ibt2 x, hbt x]
        by_cases e : x ∈ heights
        · rw [if_pos e, if_pos e, if_pos e, List.foldl_cons, hstep_eq x]
        · rw [if_neg e, if_neg e, if_neg e]

/-- Characterization of `statsFold` on success. -/
theorem statsFold_ok {KS : Type} (deriver : AddressDeriver KS) (cfg : MinerStatsConfig)
    (cache : BlockCache) (heights : List Nat) (hnd : heights.Nodup)
    (pm : List MinerSummary) (g : GlobalScanState)
    (hok : statsFold deriver cfg cache heights = .ok (pm, g)) :
    pm = cfg.miners.map (minerSummaryPre deriver cache heights) ∧
    (∀ x, x ∈ g.matched_blocks ↔
      ∃ m ∈ cfg.miners, x ∈ heights ∧ (minerStepMatch deriver cache m x).isSome = true) ∧
    (∀ x, lookupTotal g.block_totals x =
      if x ∈ heights then
        cfg.miners.foldl (fun acc m => btAfter acc (minerStepMatch deriver cache m x)) none
      else none) := by
  unfold statsFold at hok
  obtain ⟨h1, h2, h3⟩ :=
    statsFoldAux deriver cache heights hnd cfg.miners []
      { matched_blocks := ∅, block_totals := [] } pm g hok
  refine ⟨by simpa using h1, fun x => ?_, fun x => ?_⟩
  · rw [h2 x]
    simp
  · rw [h3 x]
    rfl

/-- The height range has no duplicates. -/
theorem rangeHeights_nodup (start tip : Nat) : (rangeHeights start tip).Nodup := by
  unfold rangeHeights
  apply List.nodup_range'
  omega

/-- `compute_statistics` from a successful fold. -/
theorem compute_statistics_eq_ok {KS : Type} (deriver : AddressDeriver KS)
    (cfg : MinerStatsConfig) (cache : BlockCache) (tip : Nat)
    (pm : List MinerSummary) (g : GlobalScanState)
    (hfold : statsFold deriver cfg cache (rangeHeights cfg.start_height tip) = .ok (pm, g)) :
    compute_statistics deriver cfg cache tip = .ok (reportOf cfg cache tip pm g) := by
  simp only [compute_statistics, hfold, except_bind_ok, except_pure]

/-- A successful `compute_statistics` comes from a successful fold. -/
theorem compute_statistics_ok_inv {KS : Type} (deriver : AddressDeriver KS)
    (cfg : MinerStatsConfig) (cache : BlockCache) (tip : Nat) (r : MinerStatsReport)
    (hok : compute_statistics deriver cfg cache tip = .ok r) :
    ∃ pm g, statsFold deriver cfg cache (rangeHeights cfg.start_height tip) = .ok (pm, g) ∧
      r = reportOf cfg cache tip pm g := by
  cases hf : statsFold deriver cfg cache (rangeHeights cfg.start_height tip) with
  | error e =>
    simp only [compute_statistics, hf, except_bind_error] at hok
    cases hok
  | ok pg =>
    obtain ⟨pm, g⟩ := pg
    refine ⟨pm, g, rfl, ?_⟩
    rw [compute_statistics_eq_ok deriver cfg cache tip pm g hf] at hok
    injection hok with hok
    exact hok.symm

/-- The `unmatched` summary of the assembled report. -/
theorem reportOf_unmatched (cfg : MinerStatsConfig) (cache : BlockCache) (tip : Nat)
    (pm : List MinerSummary) (g : GlobalScanState) :
    (reportOf cfg cache tip pm g).unmatched =
      { blocks := (rangeHeights cfg.start_height tip).length - g.matched_blocks.card,
        total_value_zat := (((coinbaseTotals cache (rangeHeights cfg.start_height tip)).filter
          (fun p => decide (p.1 ∉ g.matched_blocks))).map (fun p => p.2)).sum,
        total_value_wec := zats_to_wec ((((coinbaseTotals cache
          (rangeHeights cfg.start_height tip)).filter
          (fun p => decide (p.1 ∉ g.matched_blocks))).map (fun p => p.2)).sum),
        share_percent := percent_share_blocks
          ((rangeHeights cfg.start_height tip).length - g.matched_blocks.card)
          (rangeHeights cfg.start_height tip).length } := rfl

/-- The global totals of the assembled report. -/
theorem reportOf_total_value_zat (cfg : MinerStatsConfig) (cache : BlockCache) (tip : Nat)
    (pm : List MinerSummary) (g : GlobalScanState) :
    (reportOf cfg cache tip pm g).total_value_zat =
      (g.block_totals.map (fun p => p.2)).sum +
      (reportOf cfg cache tip pm g).unmatched.total_value_zat := rfl

/-- The matched-height count of the assembled report. -/
theorem reportOf_total_mined (cfg : MinerStatsConfig) (cache : BlockCache) (tip : Nat)
    (pm : List MinerSummary) (g : GlobalScanState) :
    (reportOf cfg cache tip pm g).total_mined_blocks = g.matched_blocks.card := rfl

/-- The detailed miner summaries of the assembled report. -/
theorem reportOf_detailed (cfg : MinerStatsConfig) (cache : BlockCache) (tip : Nat)
    (pm : List MinerSummary) (g : GlobalScanState) :
    (reportOf cfg cache tip pm g).detailed_miners =
      pm.map (fun m => { m with share_percent := (percent_share_blocks
        m.matched_blocks (rangeHeights cfg.start_height tip).length) }) := rfl

/-- The per-miner aggregates of the assembled report. -/
theorem reportOf_miners (cfg : MinerStatsConfig) (cache : BlockCache) (tip : Nat)
    (pm : List MinerSummary) (g : GlobalScanState) :
    (reportOf cfg cache tip pm g).miners =
      (pm.map (fun m => { m with share_percent := (percent_share_blocks
        m.matched_blocks (rangeHeights cfg.start_height tip).length) })).map
        (fun m => ({ label := m.label, matched_blocks := m.matched_blocks, total_value_zat := m.total_value_zat, total_value_wec := m.total_value_wec, share_percent := m.share_percent } : MinerAggregate)) := rfl

/-- Membership in a key store's detail records. -/
theorem mem_minerDetailsKS {KS : Type} (deriver : AddressDeriver KS) (cache : BlockCache)
    (ks : KS) (heights : List Nat) (d : MinerBlockDetail) :
    d ∈ minerDetailsKS deriver cache ks heights ↔
      ∃ x ∈ heights, ∃ mv, stepMatchKS deriver cache ks x = some (mv, d) := by
  unfold minerDetailsKS
  rw [List.mem_filterMap]
  constructor
  · rintro ⟨x, hx, hmap⟩
    cases hs : stepMatchKS deriver cache ks x with
    | none => rw [hs] at hmap; cases hmap
    | some p =>
      obtain ⟨mv, d2⟩ := p
      rw [hs] at hmap
      simp only [Option.map_some'] at hmap
      injection hmap with hmap
      exact ⟨x, hx, mv, by rw [hs, hmap]⟩
  · rintro ⟨x, hx, mv, hs⟩
    exact ⟨x, hx, by rw [hs]; rfl⟩

/-- At a height that is not representable as a derivation index, the step
matches nothing. -/
theorem stepMatchKS_none_nonrep {KS : Type} (deriver : AddressDeriver KS) (cache : BlockCache)
    (ks : KS) (h : Nat) (hbig : 2 ^ 31 ≤ h) :
    stepMatchKS deriver cache ks h = none := by
  have hidx : nonHardenedFromIndex h = none := by
    unfold nonHardenedFromIndex
    rw [if_neg (by omega)]
  cases hb : cache.getBlock h with
  | none => simp only [stepMatchKS, stepOutcome, hb]
  | some block => simp only [stepMatchKS, stepOutcome, hb, hidx]

/-- At an uncached height, the step matches nothing. -/
theorem stepMatchKS_none_uncached {KS : Type} (deriver : AddressDeriver KS) (cache : BlockCache)
    (ks : KS) (h : Nat) (hnone : cache.getBlock h = none) :
    stepMatchKS deriver cache ks h = none := by
  simp only [stepMatchKS, stepOutcome, hnone]

/-- C7. Non-representable-height skip: at a height that does not fit the
31-bit non-hardened index range, the height-loop body is the identity for
every miner and every state (no error, no counter change — the derivation
oracle is never consulted, so no diagnostic exists to emit), no detail
record carries that height, and the height is never globally matched. -/
theorem skip_nonrepresentable {KS : Type} (deriver : AddressDeriver KS) (cfg : MinerStatsConfig)
    (cache : BlockCache) (tip : Nat) (pm : List MinerSummary) (g : GlobalScanState) (h : Nat)
    (hfold : statsFold deriver cfg cache (rangeHeights cfg.start_height tip) = .ok (pm, g))
    (hbig : 2 ^ 31 ≤ h) :
    (∀ (ks : KS) (st : MinerScanState × GlobalScanState),
      minerHeightStep deriver cache ks st h = .ok st) ∧
    (∀ s ∈ pm, ∀ d ∈ s.detailed_blocks, d.block_height ≠ h) ∧
    h ∉ g.matched_blocks := by
  obtain ⟨hpm, hmem, hbt⟩ :=
    statsFold_ok deriver cfg cache _ (rangeHeights_nodup _ _) pm g hfold
  have hidx : nonHardenedFromIndex h = none := by
    unfold nonHardenedFromIndex
    rw [if_neg (by omega)]
  refine ⟨?_, ?_, ?_⟩
  · intro ks st
    rw [minerHeightStep_eq]
    cases hb : cache.getBlock h with
    | none => simp only [stepOutcome, hb]
    | some block => simp only [stepOutcome, hb, hidx]
  · intro s hs d hd
    rw [hpm] at hs
    obtain ⟨m, hm, hms⟩ := List.mem_map.mp hs
    rw [← hms] at hd
    unfold minerSummaryPre at hd
    cases hk : deriver.new_from_ufvk m.key with
    | error e =>
      simp only [hk] at hd
      cases hd
    | ok ks =>
      simp only [hk] at hd
      rw [mem_minerDetailsKS] at hd
      obtain ⟨x, hx, mv, hsm⟩ := hd
      obtain ⟨_, hdh, _, hxlt⟩ := stepMatchKS_some KS deriver cache ks x mv d hsm
      rw [hdh]
      omega
  · intro hmm2
    rw [hmem h] at hmm2
    obtain ⟨m, hm, hh, hsome⟩ := hmm2
    unfold minerStepMatch at hsome
    cases hk : deriver.new_from_ufvk m.key with
    | error e =>
      simp only [hk] at hsome
      cases hsome
    | ok ks =>
      simp only [hk] at hsome
      rw [stepMatchKS_none_nonrep deriver cache ks h hbig] at hsome
      cases hsome

/-- Witness for C7: one miner, height `2 ^ 31`. -/
theorem skip_nonrepresentable_witness :
    (∀ (ks : String) (st : MinerScanState × GlobalScanState),
      minerHeightStep exDeriver exCacheMixed ks st (2 ^ 31) = .ok st) ∧
    (∀ s ∈ [({ label := "Miner A", matched_blocks := 0, total_value_zat := 0, total_value_wec := zats_to_wec 0, share_percent := 0, detailed_blocks := [] } : MinerSummary)],
      ∀ d ∈ s.detailed_blocks, d.block_height ≠ 2 ^ 31) ∧
    (2 ^ 31) ∉ (GlobalScanState.mk ∅ []).matched_blocks :=
  skip_nonrepresentable exDeriver exCfgA exCacheMixed 100
    [({ label := "Miner A", matched_blocks := 0, total_value_zat := 0, total_value_wec := zats_to_wec 0, share_percent := 0, detailed_blocks := [] } : MinerSummary)]
    (GlobalScanState.mk ∅ []) (2 ^ 31) (by rfl) (by omega)

/-- C10. Uncached in-range heights: a height in range with no cache entry
is skipped by every miner (identity step, no detail, never globally
matched), has no entry in the coinbase-total table, contributes `0` as a
coinbase value, and is counted in `unmatched.blocks` (which is the height
count minus the globally matched count). -/
theorem uncached_height_contributes_zero {KS : Type} (deriver : AddressDeriver KS)
    (cfg : MinerStatsConfig) (cache : BlockCache) (tip : Nat) (pm : List MinerSummary)
    (g : GlobalScanState) (r : MinerStatsReport) (h : Nat)
    (hfold : statsFold deriver cfg cache (rangeHeights cfg.start_height tip) = .ok (pm, g))
    (hok : compute_statistics deriver cfg cache tip = .ok r)
    (hmem : h ∈ rangeHeights cfg.start_height tip)
    (hnone : cache.getBlock h = none) :
    (∀ (ks : KS) (st : MinerScanState × GlobalScanState),
      minerHeightStep deriver cache ks st h = .ok st) ∧
    (∀ s ∈ pm, ∀ d ∈ s.detailed_blocks, d.block_height ≠ h) ∧
    h ∉ g.matched_blocks ∧
    (∀ p ∈ coinbaseTotals cache (rangeHeights cfg.start_height tip), p.1 ≠ h) ∧
    coinbaseValueAt cache h = 0 ∧
    r.unmatched.blocks = (rangeHeights cfg.start_height tip).length - g.matched_blocks.card := by
  obtain ⟨hpm, hmemg, hbt⟩ :=
    statsFold_ok deriver cfg cache _ (rangeHeights_nodup _ _) pm g hfold
  refine ⟨?_, ?_, ?_, ?_, ?_, ?_⟩
  · intro ks st
    rw [minerHeightStep_eq]
    simp only [stepOutcome, hnone]
  · intro s hs d hd
    rw [hpm] at hs
    obtain ⟨m, hm, hms⟩ := List.mem_map.mp hs
    rw [← hms] at hd
    unfold minerSummaryPre at hd
    cases hk : deriver.new_from_ufvk m.key with
    | error e =>
      simp only [hk] at hd
      cases hd
    | ok ks =>
      simp only [hk] at hd
      rw [mem_minerDetailsKS] at hd
      obtain ⟨x, hx, mv, hsm⟩ := hd
      obtain ⟨_, hdh, _, _⟩ := stepMatchKS_some KS deriver cache ks x mv d hsm
      rw [hdh]
      intro he
      rw [he, stepMatchKS_none_uncached deriver cache ks h hnone] at hsm
      cases hsm
  · intro hmm2
    rw [hmemg h] at hmm2
    obtain ⟨m, hm, hh, hsome⟩ := hmm2
    unfold minerStepMatch at hsome
    cases hk : deriver.new_from_ufvk m.key with
    | error e =>
      simp only [hk] at hsome
      cases hsome
    | ok ks =>
      simp only [hk] at hsome
      rw [stepMatchKS_none_uncached deriver cache ks h hnone] at hsome
      cases hsome
  · intro p hp
    unfold coinbaseTotals at hp
    obtain ⟨x, hx, hfx⟩ := List.mem_filterMap.mp hp
    cases hb : cache.getBlock x with
    | none => rw [hb] at hfx; cases hfx
    | some b =>
      rw [hb] at hfx
      simp only [Option.map_some'] at hfx
      injection hfx with hfx
      rw [← hfx]
      intro he
      simp only at he
      rw [he, hnone] at hb
      cases hb
  · unfold coinbaseValueAt
    rw [hnone]
  · obtain ⟨pm2, g2, hf2, hr⟩ := compute_statistics_ok_inv deriver cfg cache tip r hok
    rw [hfold] at hf2
    injection hf2 with hf2
    rw [Prod.mk.injEq] at hf2
    obtain ⟨hpm2, hg2⟩ := hf2
    subst hpm2
    subst hg2
    rw [hr, reportOf_unmatched]

/-- Witness for C10: height 101 is in range `[100, 102]` but uncached. -/
theorem uncached_height_contributes_zero_witness :
    (∀ (ks : String) (st : MinerScanState × GlobalScanState),
      minerHeightStep exDeriver exCacheGap ks st 101 = .ok st) ∧
    (∀ s ∈ [({ label := "Miner A", matched_blocks := 1, total_value_zat := 5, total_value_wec := zats_to_wec 5, share_percent := 0, detailed_blocks := [{ block_height := 100, block_hash := "h100", payout_address := "addrA" }] } : MinerSummary),
             ({ label := "Miner B", matched_blocks := 1, total_value_zat := 3, total_value_wec := zats_to_wec 3, share_percent := 0, detailed_blocks := [{ block_height := 100, block_hash := "h100", payout_address := "addrB" }] } : MinerSummary)],
      ∀ d ∈ s.detailed_blocks, d.block_height ≠ 101) ∧
    101 ∉ (GlobalScanState.mk {100} [(100, 5)]).matched_blocks ∧
    (∀ p ∈ coinbaseTotals exCacheGap (rangeHeights 100 102), p.1 ≠ 101) ∧
    coinbaseValueAt exCacheGap 101 = 0 ∧
    (reportOf exCfgAB exCacheGap 102
      [({ label := "Miner A", matched_blocks := 1, total_value_zat := 5, total_value_wec := zats_to_wec 5, share_percent := 0, detailed_blocks := [{ block_height := 100, block_hash := "h100", payout_address := "addrA" }] } : MinerSummary),
       ({ label := "Miner B", matched_blocks := 1, total_value_zat := 3, total_value_wec := zats_to_wec 3, share_percent := 0, detailed_blocks := [{ block_height := 100, block_hash := "h100", payout_address := "addrB" }] } : MinerSummary)]
      (GlobalScanState.mk {100} [(100, 5)])).unmatched.blocks =
      (rangeHeights 100 102).length - (GlobalScanState.mk {100} [(100, 5)]).matched_blocks.card :=
  uncached_height_contributes_zero exDeriver exCfgAB exCacheGap 102
    [({ label := "Miner A", matched_blocks := 1, total_value_zat := 5, total_value_wec := zats_to_wec 5, share_percent := 0, detailed_blocks := [{ block_height := 100, block_hash := "h100", payout_address := "addrA" }] } : MinerSummary),
     ({ label := "Miner B", matched_blocks := 1, total_value_zat := 3, total_value_wec := zats_to_wec 3, share_percent := 0, detailed_blocks := [{ block_height := 100, block_hash := "h100", payout_address := "addrB" }] } : MinerSummary)]
    (GlobalScanState.mk {100} [(100, 5)])
    (reportOf exCfgAB exCacheGap 102
      [({ label := "Miner A", matched_blocks := 1, total_value_zat := 5, total_value_wec := zats_to_wec 5, share_percent := 0, detailed_blocks := [{ block_height := 100, block_hash := "h100", payout_address := "addrA" }] } : MinerSummary),
       ({ label := "Miner B", matched_blocks := 1, total_value_zat := 3, total_value_wec := zats_to_wec 3, share_percent := 0, detailed_blocks := [{ block_height := 100, block_hash := "h100", payout_address := "addrB" }] } : MinerSummary)]
      (GlobalScanState.mk {100} [(100, 5)]))
    101 (by rfl) (compute_statistics_eq_ok exDeriver exCfgAB exCacheGap 102 _ _ (by rfl))
    (by decide) (by decide)

/-- Counterexample to C6 as stated: in the mixed-sign block, miner `A`'s
derived address `addrA` matches an output with positive value (+1), yet the
matched-value *sum* is 0 (+1 together with -1), so the engine produces no
`MinerBlockDetail`, does not increment the matched-block count, and does
not mark the height as matched. -/
theorem detail_record_counterexample :
    (compute_statistics exDeriver exCfgA exCacheMixed 100).map
      (fun r => (r.total_mined_blocks,
        r.detailed_miners.map (fun s => (s.matched_blocks, s.detailed_blocks)))) =
      .ok (0, [(0, [])]) ∧
    exCacheMixed.getBlock 100 = some exBlockMixed ∧
    exDeriver.new_from_ufvk "A" = .ok "A" ∧
    exDeriver.generate_transparent_address "A" 100 = .ok "addrA" ∧
    exBlockMixed.outputs.any (fun o => decide (0 < o.value_zat) &&
      o.addresses.any (fun a => a == "addrA")) = true ∧
    matchedValue exBlockMixed.outputs "addrA" = 0 :=
  ⟨rfl, rfl, rfl, rfl, rfl, rfl⟩

/-- C6 (amended). Detail-record condition: for a miner whose key decodes to
`ks` and an in-range cached height `h` with a representable index and a
successful derivation `encoded`, the engine records
`MinerBlockDetail (h, hash, encoded)` for that miner and marks `h` globally
matched if and only if the *sum* of the values of the outputs matching
`encoded` is positive; the miner's matched-block count is the number of
heights with a positive matched-value sum, and `h` is among them iff that
sum is positive at `h`. -/
theorem detail_record_iff {KS : Type} (deriver : AddressDeriver KS) (cfg : MinerStatsConfig)
    (cache : BlockCache) (tip : Nat) (pm : List MinerSummary) (g : GlobalScanState)
    (m : MinerEntry) (ks : KS) (block : CachedBlock) (h : Nat) (encoded : String)
    (hfold : statsFold deriver cfg cache (rangeHeights cfg.start_height tip) = .ok (pm, g))
    (hm : m ∈ cfg.miners)
    (hk : deriver.new_from_ufvk m.key = .ok ks)
    (hh : h ∈ rangeHeights cfg.start_height tip)
    (hb : cache.getBlock h = some block)
    (hrep : h < 2 ^ 31)
    (hd : deriver.generate_transparent_address ks h = .ok encoded) :
    pm = cfg.miners.map (minerSummaryPre deriver cache (rangeHeights cfg.start_height tip)) ∧
    ((({ block_height := h, block_hash := block.hash, payout_address := encoded } :
        MinerBlockDetail) ∈
        (minerSummaryPre deriver cache (rangeHeights cfg.start_height tip) m).detailed_blocks ∧
      h ∈ g.matched_blocks) ↔ 0 < matchedValue block.outputs encoded) ∧
    (minerSummaryPre deriver cache (rangeHeights cfg.start_height tip) m).matched_blocks =
      (matchedHeightsKS deriver cache ks (rangeHeights cfg.start_height tip)).length ∧
    (h ∈ matchedHeightsKS deriver cache ks (rangeHeights cfg.start_height tip) ↔
      0 < matchedValue block.outputs encoded) := by
  obtain ⟨hpm, hmemg, _⟩ :=
    statsFold_ok deriver cfg cache _ (rangeHeights_nodup _ _) pm g hfold
  have hidx : nonHardenedFromIndex h = some h := by
    unfold nonHardenedFromIndex
    rw [if_pos hrep]
  by_cases hmv : 0 < matchedValue block.outputs encoded
  · have hsm : stepMatchKS deriver cache ks h =
        some (matchedValue block.outputs encoded,
          { block_height := h, block_hash := block.hash, payout_address := encoded }) := by
      simp only [stepMatchKS, stepOutcome, hb, hidx, hd, if_pos hmv]
    refine ⟨hpm, ?_, ?_, ?_⟩
    · refine iff_of_true ⟨?_, ?_⟩ hmv
      · simp only [minerSummaryPre, hk]
        rw [mem_minerDetailsKS]
        exact ⟨h, hh, matchedValue block.outputs encoded, hsm⟩
      · rw [hmemg h]
        refine ⟨m, hm, hh, ?_⟩
        simp only [minerStepMatch, hk, hsm, Option.isSome_some]
    · simp only [minerSummaryPre, hk]
    · rw [mem_matchedHeightsKS]
      simp [hh, hsm, hmv]
  · have hsm : stepMatchKS deriver cache ks h = none := by
      simp only [stepMatchKS, stepOutcome, hb, hidx, hd, if_neg hmv]
    refine ⟨hpm, ?_, ?_, ?_⟩
    · refine iff_of_false ?_ hmv
      rintro ⟨hdet, _⟩
      simp only [minerSummaryPre, hk] at hdet
      rw [mem_minerDetailsKS] at hdet
      obtain ⟨x, hx, mv2, hsm2⟩ := hdet
      obtain ⟨_, hdh, _, _⟩ := stepMatchKS_some KS deriver cache ks x mv2 _ hsm2
      simp only at hdh
      rw [← hdh] at hsm2
      rw [hsm] at hsm2
      cases hsm2
    · simp only [minerSummaryPre, hk]
    · rw [mem_matchedHeightsKS]
      simp [hh, hsm, hmv]

/-- Witness for the amended C6: miner `A` matches block 100 with sum 5. -/
theorem detail_record_iff_witness :
    [({ label := "Miner A", matched_blocks := 1, total_value_zat := 5, total_value_wec := zats_to_wec 5, share_percent := 0, detailed_blocks := [{ block_height := 100, block_hash := "h100", payout_address := "addrA" }] } : MinerSummary),
     ({ label := "Miner B", matched_blocks := 1, total_value_zat := 3, total_value_wec := zats_to_wec 3, share_percent := 0, detailed_blocks := [{ block_height := 100, block_hash := "h100", payout_address := "addrB" }] } : MinerSummary)] =
      exCfgAB.miners.map (minerSummaryPre exDeriver exCacheGap (rangeHeights 100 102)) ∧
    ((({ block_height := 100, block_hash := exBlockAB.hash, payout_address := "addrA" } :
        MinerBlockDetail) ∈
        (minerSummaryPre exDeriver exCacheGap (rangeHeights 100 102)
          { key := "A", label := "Miner A" }).detailed_blocks ∧
      100 ∈ (GlobalScanState.mk {100} [(100, 5)]).matched_blocks) ↔
        0 < matchedValue exBlockAB.outputs "addrA") ∧
    (minerSummaryPre exDeriver exCacheGap (rangeHeights 100 102)
        { key := "A", label := "Miner A" }).matched_blocks =
      (matchedHeightsKS exDeriver exCacheGap "A" (rangeHeights 100 102)).length ∧
    (100 ∈ matchedHeightsKS exDeriver exCacheGap "A" (rangeHeights 100 102) ↔
      0 < matchedValue exBlockAB.outputs "addrA") := by
  have h := detail_record_iff exDeriver exCfgAB exCacheGap 102
    [({ label := "Miner A", matched_blocks := 1, total_value_zat := 5, total_value_wec := zats_to_wec 5, share_percent := 0, detailed_blocks := [{ block_height := 100, block_hash := "h100", payout_address := "addrA" }] } : MinerSummary),
     ({ label := "Miner B", matched_blocks := 1, total_value_zat := 3, total_value_wec := zats_to_wec 3, share_percent := 0, detailed_blocks := [{ block_height := 100, block_hash := "h100", payout_address := "addrB" }] } : MinerSummary)]
    (GlobalScanState.mk {100} [(100, 5)])
    { key := "A", label := "Miner A" } "A" exBlockAB 100 "addrA"
    (by rfl) (by decide) (by rfl) (by decide) (by rfl) (by decide) (by rfl)
  exact h

/-- `omaxO` is associative. -/
theorem omaxO_assoc (a b c : Option Int) : omaxO (omaxO a b) c = omaxO a (omaxO b c) := by
  cases a <;> cases b <;> cases c <;> simp [omaxO, max_assoc]

/-- `btAfter` against a positive match is `omaxO` with its value. -/
theorem btAfter_some (acc : Option Int) (mv : Int) (d : MinerBlockDetail) :
    btAfter acc (some (mv, d)) = omaxO acc (some mv) := by
  cases acc <;> rfl

/-- The fold of `btAfter` over the miners computes the maximum matched
value across the miners. -/
theorem foldl_btAfter_eq {KS : Type} (deriver : AddressDeriver KS) (cache : BlockCache)
    (x : Nat) :
    ∀ (ms : List MinerEntry) (acc : Option Int),
    ms.foldl (fun acc m => btAfter acc (minerStepMatch deriver cache m x)) acc =
    omaxO acc (listMaxO (ms.filterMap (fun m => (minerStepMatch deriver cache m x).map Prod.fst))) := by
  intro ms
  induction ms with
  | nil => intro acc; cases acc <;> rfl
  | cons m rest ih =>
    intro acc
    rw [List.foldl_cons]
    cases hsm : minerStepMatch deriver cache m x with
    | none =>
      rw [ih]
      simp [List.filterMap_cons, hsm, btAfter]
    | some p =>
      obtain ⟨mv, d⟩ := p
      rw [ih]
      simp only [List.filterMap_cons, hsm, Option.map_some']
      rw [btAfter_some, listMaxO, omaxO_assoc]

/-- The maximum of a non-empty list exists. -/
theorem listMaxO_isSome (l : List Int) (hne : l ≠ []) : (listMaxO l).isSome = true := by
  cases l with
  | nil => exact absurd rfl hne
  | cons a rest =>
    rw [listMaxO]
    cases listMaxO rest <;> rfl

/-- Sum and positivity of `block_totals` after one update. -/
theorem sum_updateBlockTotal (bt : List (Nat × Int)) (h : Nat) (mv : Int)
    (hmv : 0 < mv) (hpos : ∀ p ∈ bt, 0 < p.2) :
    ((updateBlockTotal bt h mv).map (fun p => p.2)).sum ≤ (bt.map (fun p => p.2)).sum + mv ∧
    (∀ p ∈ updateBlockTotal bt h mv, 0 < p.2) := by
  induction bt with
  | nil =>
    refine ⟨by simp [updateBlockTotal], ?_⟩
    intro p hp
    rw [updateBlockTotal] at hp
    rcases List.mem_singleton.mp hp with rfl
    exact hmv
  | cons q rest ih =>
    obtain ⟨k, w⟩ := q
    by_cases e : k = h
    · subst e
      have hupd : updateBlockTotal ((k, w) :: rest) k mv = (k, max w mv) :: rest := by
        simp [updateBlockTotal]
      rw [hupd]
      have hw : 0 < w := hpos (k, w) (List.mem_cons_self _ _)
      refine ⟨?_, ?_⟩
      · simp only [List.map_cons, List.sum_cons]
        have hle : max w mv ≤ w + mv := max_le (by omega) (by omega)
        omega
      · intro p hp
        rcases List.mem_cons.mp hp with rfl | hp2
        · exact lt_max_of_lt_right hmv
        · exact hpos p (List.mem_cons_of_mem _ hp2)
    · simp only [updateBlockTotal, if_neg e]
      obtain ⟨ihs, ihp⟩ := ih (fun p hp => hpos p (List.mem_cons_of_mem _ hp))
      refine ⟨?_, ?_⟩
      · simp only [List.map_cons, List.sum_cons]
        omega
      · intro p hp
        rcases List.mem_cons.mp hp with rfl | hp2
        · exact hpos (k, w) (List.mem_cons_self _ _)
        · exact ihp p hp2

/-- Through one miner's height loop, the sum of `block_totals` grows by at
most the miner's own total, and all entries stay positive. -/
theorem heightFold_bt_sum {KS : Type} (deriver : AddressDeriver KS) (cache : BlockCache)
    (ks : KS) :
    ∀ (heights : List Nat) (st r : MinerScanState × GlobalScanState),
    heights.foldlM (minerHeightStep deriver cache ks) st = .ok r →
    (∀ p ∈ st.2.block_totals, 0 < p.2) →
    ((r.2.block_totals.map (fun p => p.2)).sum ≤
      (st.2.block_totals.map (fun p => p.2)).sum + minerValueKS deriver cache ks heights) ∧
    (∀ p ∈ r.2.block_totals, 0 < p.2) := by
  intro heights
  induction heights with
  | nil =>
    intro st r hok hpos
    simp only [List.foldlM_nil] at hok
    have hr : st = r := by injection hok
    subst hr
    exact ⟨by simp [minerValueKS], hpos⟩
  | cons x rest ih =>
    intro st r hok hpos
    rw [List.foldlM_cons] at hok
    cases ho : stepOutcome deriver cache ks x with
    | error e =>
      have hstep : minerHeightStep deriver cache ks st x = .error e := by
        rw [minerHeightStep_eq, ho]
      rw [hstep, except_bind_error] at hok
      cases hok
    | ok o =>
      cases o with
      | none =>
        have hstep : minerHeightStep deriver cache ks st x = .ok st := by
          rw [minerHeightStep_eq, ho]
        rw [hstep, except_bind_ok] at hok
        obtain ⟨ihs, ihp⟩ := ih st r hok hpos
        have hsm : stepMatchKS deriver cache ks x = none := by
          unfold stepMatchKS
          rw [ho]
        refine ⟨?_, ihp⟩
        simp only [minerValueKS, List.filterMap_cons, hsm]
        simpa [minerValueKS] using ihs
      | some p =>
        obtain ⟨mv, d⟩ := p
        have hsm : stepMatchKS deriver cache ks x = some (mv, d) := by
          unfold stepMatchKS
          rw [ho]
        obtain ⟨hmv, _, _, _⟩ := stepMatchKS_some KS deriver cache ks x mv d hsm
        have hstep : minerHeightStep deriver cache ks st x =
            .ok ({ blocks := st.1.blocks + 1, total_value := st.1.total_value + mv,
                   details := st.1.details ++ [d] },
                 { matched_blocks := insert x st.2.matched_blocks,
                   block_totals := updateBlockTotal st.2.block_totals x mv }) := by
          rw [minerHeightStep_eq, ho]
        rw [hstep, except_bind_ok] at hok
        obtain ⟨hus, hup⟩ := sum_updateBlockTotal st.2.block_totals x mv hmv hpos
        obtain ⟨ihs, ihp⟩ := ih _ r hok hup
        refine ⟨?_, ihp⟩
        simp only [minerValueKS, List.filterMap_cons, hsm, Option.map_some', List.sum_cons]
        have := ihs
        simp only [minerValueKS] at this
        omega

/-- A key store's value total equals the miner's value total once the key
is decoded. -/
theorem minerValueKS_eq_minerValueOf {KS : Type} (deriver : AddressDeriver KS)
    (cache : BlockCache) (heights : List Nat) (m : MinerEntry) (ks : KS)
    (hk : deriver.new_from_ufvk m.key = .ok ks) :
    minerValueKS deriver cache ks heights = minerValueOf deriver cache heights m := by
  simp only [minerValueKS, minerValueOf, minerStepMatch, hk]

/-- The total of a miner's summary is its full matched value. -/
theorem minerSummaryPre_total {KS : Type} (deriver : AddressDeriver KS) (cache : BlockCache)
    (heights : List Nat) (m : MinerEntry) :
    (minerSummaryPre deriver cache heights m).total_value_zat =
      minerValueOf deriver cache heights m := by
  unfold minerSummaryPre
  cases hk : deriver.new_from_ufvk m.key with
  | error e =>
    simp only [hk, minerValueOf, minerStepMatch, Option.map_none']
    have hnil : (heights.filterMap (fun _ : Nat => (none : Option Int))) = [] := by
      rw [List.filterMap_eq_nil_iff]
      intro a _
      rfl
    rw [hnil]
    rfl
  | ok ks =>
    simp only [hk]
    exact minerValueKS_eq_minerValueOf deriver cache heights m ks hk

/-- Through the whole miner loop, the sum of `block_totals` is bounded by
the sum of the miners' own totals, and all entries stay positive. -/
theorem statsFold_bt_sum {KS : Type} (deriver : AddressDeriver KS) (cache : BlockCache)
    (heights : List Nat) :
    ∀ (miners : List MinerEntry) (pm0 : List MinerSummary) (g0 : GlobalScanState)
      (pm : List MinerSummary) (g : GlobalScanState),
    miners.foldlM
      (fun acc miner => do
        let (s, g1) ← minerScan deriver cache heights miner acc.2
        pure (acc.1 ++ [s], g1)) (pm0, g0) = .ok (pm, g) →
    (∀ p ∈ g0.block_totals, 0 < p.2) →
    ((g.block_totals.map (fun p => p.2)).sum ≤
      (g0.block_totals.map (fun p => p.2)).sum +
      (miners.map (fun m => minerValueOf deriver cache heights m)).sum) ∧
    (∀ p ∈ g.block_totals, 0 < p.2) := by
  intro miners
  induction miners with
  | nil =>
    intro pm0 g0 pm g hok hpos
    simp only [List.foldlM_nil] at hok
    injection hok with hok
    rw [Prod.mk.injEq] at hok
    obtain ⟨h1, h2⟩ := hok
    subst h2
    exact ⟨by simp, hpos⟩
  | cons m rest ih =>
    intro pm0 g0 pm g hok hpos
    simp only [List.foldlM_cons] at hok
    cases hsc : minerScan deriver cache heights m g0 with
    | error e => rw [hsc, except_bind_error] at hok; cases hok
    | ok sg1 =>
      obtain ⟨s, g1⟩ := sg1
      rw [hsc] at hok
      simp only [except_bind_ok, except_pure] at hok
      unfold minerScan at hsc
      cases hk : deriver.new_from_ufvk m.key with
      | error e => rw [hk, except_bind_error] at hsc; cases hsc
      | ok ks =>
        rw [hk] at hsc
        simp only [except_bind_ok] at hsc
        cases hf : heights.foldlM (minerHeightStep deriver cache ks)
            ({ blocks := 0, total_value := 0, details := [] }, g0) with
        | error e => rw [hf, except_bind_error] at hsc; cases hsc
        | ok msg2 =>
          obtain ⟨ms, g2⟩ := msg2
          rw [hf] at hsc
          simp only [except_bind_ok, except_pure] at hsc
          injection hsc with hsc
          rw [Prod.mk.injEq] at hsc
          obtain ⟨_, hg12⟩ := hsc
          obtain ⟨hfs, hfp⟩ := heightFold_bt_sum deriver cache ks heights _ _ hf hpos
          rw [hg12] at hfs hfp
          have hfs2 : (g1.block_totals.map (fun p => p.2)).sum ≤
              (g0.block_totals.map (fun p => p.2)).sum +
              minerValueKS deriver cache ks heights := by
            simpa using hfs
          have hfp2 : ∀ p ∈ g1.block_totals, 0 < p.2 := by
            simpa using hfp
          obtain ⟨ihs, ihp⟩ := ih (pm0 ++ [s]) g1 pm g hok hfp2
          refine ⟨?_, ihp⟩
          rw [minerValueKS_eq_minerValueOf deriver cache heights m ks hk] at hfs2
          simp only [List.map_cons, List.sum_cons]
          omega

/-- C2. Multi-miner dedup policy: at every in-range height where at least
one miner matches, the `block_totals` entry is exactly the *maximum*
matched value over the miners (and in particular exists), each miner's
summary total is its own full matched value summed over the range, and
consequently the sum of `block_totals` is at most the sum of the miners'
totals. -/
theorem dedup_max_policy {KS : Type} (deriver : AddressDeriver KS) (cfg : MinerStatsConfig)
    (cache : BlockCache) (tip : Nat) (pm : List MinerSummary) (g : GlobalScanState) (h : Nat)
    (hfold : statsFold deriver cfg cache (rangeHeights cfg.start_height tip) = .ok (pm, g))
    (hh : h ∈ rangeHeights cfg.start_height tip)
    (hmatch : ∃ m ∈ cfg.miners, (minerStepMatch deriver cache m h).isSome = true) :
    lookupTotal g.block_totals h =
      listMaxO (cfg.miners.filterMap (fun m => (minerStepMatch deriver cache m h).map Prod.fst)) ∧
    (lookupTotal g.block_totals h).isSome = true ∧
    pm.map (fun s => s.total_value_zat) =
      cfg.miners.map (fun m => minerValueOf deriver cache (rangeHeights cfg.start_height tip) m) ∧
    (g.block_totals.map (fun p => p.2)).sum ≤ (pm.map (fun s => s.total_value_zat)).sum := by
  obtain ⟨hpm, hmemg, hbt⟩ :=
    statsFold_ok deriver cfg cache _ (rangeHeights_nodup _ _) pm g hfold
  have ha : lookupTotal g.block_totals h =
      listMaxO (cfg.miners.filterMap (fun m => (minerStepMatch deriver cache m h).map Prod.fst)) := by
    rw [hbt h, if_pos hh, foldl_btAfter_eq]
    rfl
  have hb2 : pm.map (fun s => s.total_value_zat) =
      cfg.miners.map (fun m => minerValueOf deriver cache (rangeHeights cfg.start_height tip) m) := by
    rw [hpm, List.map_map]
    have : ((fun s => s.total_value_zat) ∘
        minerSummaryPre deriver cache (rangeHeights cfg.start_height tip)) =
        fun m => minerValueOf deriver cache (rangeHeights cfg.start_height tip) m :=
      funext (fun m => minerSummaryPre_total deriver cache _ m)
    rw [this]
  refine ⟨ha, ?_, hb2, ?_⟩
  · rw [ha]
    apply listMaxO_isSome
    obtain ⟨m, hm, hsome⟩ := hmatch
    cases hsm : minerStepMatch deriver cache m h with
    | none => rw [hsm] at hsome; cases hsome
    | some p =>
      apply List.ne_nil_of_mem
      show p.1 ∈ _
      exact List.mem_filterMap.mpr ⟨m, hm, by rw [hsm]; rfl⟩
  · unfold statsFold at hfold
    obtain ⟨hsum, _⟩ :=
      statsFold_bt_sum deriver cache (rangeHeights cfg.start_height tip) cfg.miners []
        { matched_blocks := ∅, block_totals := [] } pm g hfold (by intro p hp; cases hp)
    rw [hb2]
    simpa using hsum

/-- Witness for C2: miners `A` and `B` both match block 100 (values 5 and
3); `block_totals` keeps `max 5 3 = 5`, the miners' totals are 5 and 3, and
the global matched sum 5 is strictly below the miner-total sum 8. -/
theorem dedup_max_policy_witness :
    (lookupTotal (GlobalScanState.mk {100} [(100, 5)]).block_totals 100 =
      listMaxO (exCfgAB.miners.filterMap
        (fun m => (minerStepMatch exDeriver exCacheGap m 100).map Prod.fst)) ∧
    (lookupTotal (GlobalScanState.mk {100} [(100, 5)]).block_totals 100).isSome = true ∧
    [({ label := "Miner A", matched_blocks := 1, total_value_zat := 5, total_value_wec := zats_to_wec 5, share_percent := 0, detailed_blocks := [{ block_height := 100, block_hash := "h100", payout_address := "addrA" }] } : MinerSummary),
     ({ label := "Miner B", matched_blocks := 1, total_value_zat := 3, total_value_wec := zats_to_wec 3, share_percent := 0, detailed_blocks := [{ block_height := 100, block_hash := "h100", payout_address := "addrB" }] } : MinerSummary)].map
        (fun s => s.total_value_zat) =
      exCfgAB.miners.map
        (fun m => minerValueOf exDeriver exCacheGap (rangeHeights 100 102) m) ∧
    ((GlobalScanState.mk {100} [(100, 5)]).block_totals.map (fun p => p.2)).sum ≤
      ([({ label := "Miner A", matched_blocks := 1, total_value_zat := 5, total_value_wec := zats_to_wec 5, share_percent := 0, detailed_blocks := [{ block_height := 100, block_hash := "h100", payout_address := "addrA" }] } : MinerSummary),
        ({ label := "Miner B", matched_blocks := 1, total_value_zat := 3, total_value_wec := zats_to_wec 3, share_percent := 0, detailed_blocks := [{ block_height := 100, block_hash := "h100", payout_address := "addrB" }] } : MinerSummary)].map
        (fun s => s.total_value_zat)).sum) ∧
    ((5 : Int) < 8) :=
  ⟨dedup_max_policy exDeriver exCfgAB exCacheGap 102
    [({ label := "Miner A", matched_blocks := 1, total_value_zat := 5, total_value_wec := zats_to_wec 5, share_percent := 0, detailed_blocks := [{ block_height := 100, block_hash := "h100", payout_address := "addrA" }] } : MinerSummary),
     ({ label := "Miner B", matched_blocks := 1, total_value_zat := 3, total_value_wec := zats_to_wec 3, share_percent := 0, detailed_blocks := [{ block_height := 100, block_hash := "h100", payout_address := "addrB" }] } : MinerSummary)]
    (GlobalScanState.mk {100} [(100, 5)]) 100 (by rfl) (by decide)
    ⟨{ key := "A", label := "Miner A" }, by decide, by rfl⟩,
   by decide⟩

/-- Unfolding `coinbase_totals` one height at a time. -/
theorem coinbaseTotals_cons (cache : BlockCache) (h : Nat) (rest : List Nat) :
    coinbaseTotals cache (h :: rest) =
      (match cache.getBlock h with
       | some block =>
         (h, (block.outputs.map (fun o => o.value_zat)).sum) :: coinbaseTotals cache rest
       | none => coinbaseTotals cache rest) := by
  cases hb : cache.getBlock h with
  | none => simp [coinbaseTotals, List.filterMap_cons, hb]
  | some b => simp [coinbaseTotals, List.filterMap_cons, hb]

/-- The filtered sum over `coinbase_totals` equals the sum of full coinbase
values over the kept heights (uncached heights contribute `0`). -/
theorem sum_coinbaseTotals_filter (cache : BlockCache) (S : Finset Nat) :
    ∀ (heights : List Nat),
    (((coinbaseTotals cache heights).filter (fun p => decide (p.1 ∉ S))).map
      (fun p => p.2)).sum =
    ((heights.filter (fun h => decide (h ∉ S))).map (fun h => coinbaseValueAt cache h)).sum := by
  intro heights
  induction heights with
  | nil => rfl
  | cons h rest ih =>
    cases hb : cache.getBlock h with
    | none =>
      simp only [coinbaseTotals_cons, hb]
      rw [List.filter_cons]
      by_cases e : h ∈ S
      · rw [if_neg (by simp [e])]
        exact ih
      · rw [if_pos (by simp [e]), List.map_cons, List.sum_cons]
        have hcv : coinbaseValueAt cache h = 0 := by simp [coinbaseValueAt, hb]
        rw [hcv, ih]
        omega
    | some b =>
      simp only [coinbaseTotals_cons, hb]
      rw [List.filter_cons, List.filter_cons]
      by_cases e : h ∈ S
      · rw [if_neg (by simp [e]), if_neg (by simp [e])]
        exact ih
      · rw [if_pos (by simp [e]), if_pos (by simp [e]),
          List.map_cons, List.sum_cons, List.map_cons, List.sum_cons]
        have hcv : coinbaseValueAt cache h = (b.outputs.map (fun o => o.value_zat)).sum := by
          simp [coinbaseValueAt, hb]
        rw [hcv, ih]

/-- C3. Global totals: `unmatched_value` is the sum of the full coinbase
total over exactly the in-range heights not globally matched (a matched
height contributes nothing, an uncached height contributes `0`), and the
report's `total_value` is the sum of `block_totals` plus
`unmatched_value`. -/
theorem global_totals {KS : Type} (deriver : AddressDeriver KS) (cfg : MinerStatsConfig)
    (cache : BlockCache) (tip : Nat) (pm : List MinerSummary) (g : GlobalScanState)
    (r : MinerStatsReport)
    (hfold : statsFold deriver cfg cache (rangeHeights cfg.start_height tip) = .ok (pm, g))
    (hok : compute_statistics deriver cfg cache tip = .ok r) :
    r.unmatched.total_value_zat =
      (((rangeHeights cfg.start_height tip).filter
        (fun h => decide (h ∉ g.matched_blocks))).map
        (fun h => coinbaseValueAt cache h)).sum ∧
    r.total_value_zat =
      (g.block_totals.map (fun p => p.2)).sum + r.unmatched.total_value_zat := by
  obtain ⟨pm2, g2, hf2, hr⟩ := compute_statistics_ok_inv deriver cfg cache tip r hok
  rw [hfold] at hf2
  injection hf2 with hf2
  rw [Prod.mk.injEq] at hf2
  obtain ⟨hpm2, hg2⟩ := hf2
  subst hpm2
  subst hg2
  subst hr
  constructor
  · rw [reportOf_unmatched]
    exact sum_coinbaseTotals_filter cache _ (rangeHeights cfg.start_height tip)
  · exact reportOf_total_value_zat cfg cache tip _ _

/-- Witness for C3 at the two-miner gap scenario. -/
theorem global_totals_witness :
    (reportOf exCfgAB exCacheGap 102
      [({ label := "Miner A", matched_blocks := 1, total_value_zat := 5, total_value_wec := zats_to_wec 5, share_percent := 0, detailed_blocks := [{ block_height := 100, block_hash := "h100", payout_address := "addrA" }] } : MinerSummary),
       ({ label := "Miner B", matched_blocks := 1, total_value_zat := 3, total_value_wec := zats_to_wec 3, share_percent := 0, detailed_blocks := [{ block_height := 100, block_hash := "h100", payout_address := "addrB" }] } : MinerSummary)]
      (GlobalScanState.mk {100} [(100, 5)])).unmatched.total_value_zat =
      (((rangeHeights 100 102).filter
        (fun h => decide (h ∉ (GlobalScanState.mk {100} [(100, 5)]).matched_blocks))).map
        (fun h => coinbaseValueAt exCacheGap h)).sum ∧
    (reportOf exCfgAB exCacheGap 102
      [({ label := "Miner A", matched_blocks := 1, total_value_zat := 5, total_value_wec := zats_to_wec 5, share_percent := 0, detailed_blocks := [{ block_height := 100, block_hash := "h100", payout_address := "addrA" }] } : MinerSummary),
       ({ label := "Miner B", matched_blocks := 1, total_value_zat := 3, total_value_wec := zats_to_wec 3, share_percent := 0, detailed_blocks := [{ block_height := 100, block_hash := "h100", payout_address := "addrB" }] } : MinerSummary)]
      (GlobalScanState.mk {100} [(100, 5)])).total_value_zat =
      ((GlobalScanState.mk {100} [(100, 5)]).block_totals.map (fun p => p.2)).sum +
      (reportOf exCfgAB exCacheGap 102
        [({ label := "Miner A", matched_blocks := 1, total_value_zat := 5, total_value_wec := zats_to_wec 5, share_percent := 0, detailed_blocks := [{ block_height := 100, block_hash := "h100", payout_address := "addrA" }] } : MinerSummary),
         ({ label := "Miner B", matched_blocks := 1, total_value_zat := 3, total_value_wec := zats_to_wec 3, share_percent := 0, detailed_blocks := [{ block_height := 100, block_hash := "h100", payout_address := "addrB" }] } : MinerSummary)]
        (GlobalScanState.mk {100} [(100, 5)])).unmatched.total_value_zat :=
  global_totals exDeriver exCfgAB exCacheGap 102
    [({ label := "Miner A", matched_blocks := 1, total_value_zat := 5, total_value_wec := zats_to_wec 5, share_percent := 0, detailed_blocks := [{ block_height := 100, block_hash := "h100", payout_address := "addrA" }] } : MinerSummary),
     ({ label := "Miner B", matched_blocks := 1, total_value_zat := 3, total_value_wec := zats_to_wec 3, share_percent := 0, detailed_blocks := [{ block_height := 100, block_hash := "h100", payout_address := "addrB" }] } : MinerSummary)]
    (GlobalScanState.mk {100} [(100, 5)]) _ (by rfl)
    (compute_statistics_eq_ok exDeriver exCfgAB exCacheGap 102 _ _ (by rfl))

/-- C8. Share computation: the percent-share function returns `0` when the
total is `0` (no division occurs), otherwise rounds `part / total * 100` to
two decimal places; each report miner's `share_percent` and the unmatched
share are computed by this function over the height count. -/
theorem percent_share_spec :
    (∀ part : Nat, percent_share_blocks part 0 = 0) ∧
    (∀ part total : Nat, total ≠ 0 →
      percent_share_blocks part total = roundTo2 ((part : ℚ) / (total : ℚ) * 100)) ∧
    (∀ (KS : Type) (deriver : AddressDeriver KS) (cfg : MinerStatsConfig)
      (cache : BlockCache) (tip : Nat) (r : MinerStatsReport),
      compute_statistics deriver cfg cache tip = .ok r →
      (∀ a ∈ r.miners, a.share_percent =
        percent_share_blocks a.matched_blocks (rangeHeights cfg.start_height tip).length) ∧
      r.unmatched.share_percent =
        percent_share_blocks r.unmatched.blocks (rangeHeights cfg.start_height tip).length) := by
  refine ⟨fun part => rfl, fun part total h => ?_, ?_⟩
  · simp only [percent_share_blocks, roundTo2, if_neg h]
  · intro KS deriver cfg cache tip r hok
    obtain ⟨pm, g, hf, hr⟩ := compute_statistics_ok_inv deriver cfg cache tip r hok
    subst hr
    constructor
    · intro a ha
      rw [reportOf_miners] at ha
      obtain ⟨m1, hm1, hma⟩ := List.mem_map.mp ha
      obtain ⟨m0, hm0, hm01⟩ := List.mem_map.mp hm1
      rw [← hma, ← hm01]
    · rw [reportOf_unmatched]

/-- Witness for C8: `total = 0` branch, the exact value at `part = 1`,
`total = 3`, and the report shares in the two-miner scenario. -/
theorem percent_share_spec_witness :
    percent_share_blocks 1 0 = 0 ∧
    ((3 : Nat) ≠ 0 ∧ percent_share_blocks 1 3 = roundTo2 ((1 : ℚ) / (3 : ℚ) * 100)) ∧
    (∀ a ∈ (reportOf exCfgAB exCacheGap 102
        [({ label := "Miner A", matched_blocks := 1, total_value_zat := 5, total_value_wec := zats_to_wec 5, share_percent := 0, detailed_blocks := [{ block_height := 100, block_hash := "h100", payout_address := "addrA" }] } : MinerSummary),
         ({ label := "Miner B", matched_blocks := 1, total_value_zat := 3, total_value_wec := zats_to_wec 3, share_percent := 0, detailed_blocks := [{ block_height := 100, block_hash := "h100", payout_address := "addrB" }] } : MinerSummary)]
        (GlobalScanState.mk {100} [(100, 5)])).miners,
      a.share_percent = percent_share_blocks a.matched_blocks (rangeHeights 100 102).length) :=
  ⟨percent_share_spec.1 1,
   ⟨by decide, percent_share_spec.2.1 1 3 (by decide)⟩,
   (percent_share_spec.2.2 String exDeriver exCfgAB exCacheGap 102 _
      (compute_statistics_eq_ok exDeriver exCfgAB exCacheGap 102
        [({ label := "Miner A", matched_blocks := 1, total_value_zat := 5, total_value_wec := zats_to_wec 5, share_percent := 0, detailed_blocks := [{ block_height := 100, block_hash := "h100", payout_address := "addrA" }] } : MinerSummary),
         ({ label := "Miner B", matched_blocks := 1, total_value_zat := 3, total_value_wec := zats_to_wec 3, share_percent := 0, detailed_blocks := [{ block_height := 100, block_hash := "h100", payout_address := "addrB" }] } : MinerSummary)]
        (GlobalScanState.mk {100} [(100, 5)]) (by rfl))).1⟩

/-- One miner's height loop succeeds from any state exactly when every
height's step outcome is non-fatal. -/
theorem heightFold_succ_iff {KS : Type} (deriver : AddressDeriver KS) (cache : BlockCache)
    (ks : KS) :
    ∀ (heights : List Nat) (st : MinerScanState × GlobalScanState),
    (∃ r, heights.foldlM (minerHeightStep deriver cache ks) st = .ok r) ↔
    (∀ h ∈ heights, ∃ o, stepOutcome deriver cache ks h = .ok o) := by
  intro heights
  induction heights with
  | nil =>
    intro st
    constructor
    · intro _ h hmem
      cases hmem
    · intro _
      exact ⟨st, rfl⟩
  | cons x rest ih =>
    intro st
    simp only [List.foldlM_cons]
    cases ho : stepOutcome deriver cache ks x with
    | error e =>
      have hstep : minerHeightStep deriver cache ks st x = .error e := by
        rw [minerHeightStep_eq, ho]
      simp only [hstep, except_bind_error]
      constructor
      · rintro ⟨r, hr⟩
        cases hr
      · intro hall
        obtain ⟨o, hoo⟩ := hall x (List.mem_cons_self _ _)
        rw [ho] at hoo
        cases hoo
    | ok o =>
      cases o with
      | none =>
        have hst2 : minerHeightStep deriver cache ks st x = .ok st := by
          rw [minerHeightStep_eq, ho]
        simp only [hst2, except_bind_ok]
        rw [ih st]
        constructor
        · intro hall h hmem
          rcases List.mem_cons.mp hmem with rfl | hm
          · exact ⟨none, ho⟩
          · exact hall h hm
        · intro hall h hmem
          exact hall h (List.mem_cons_of_mem _ hmem)
      | some p =>
        obtain ⟨mv, d⟩ := p
        have hst2 : minerHeightStep deriver cache ks st x =
            .ok ({ blocks := st.1.blocks + 1, total_value := st.1.total_value + mv,
                   details := st.1.details ++ [d] },
                 { matched_blocks := insert x st.2.matched_blocks,
                   block_totals := updateBlockTotal st.2.block_totals x mv }) := by
          rw [minerHeightStep_eq, ho]
        simp only [hst2, except_bind_ok]
        rw [ih _]
        constructor
        · intro hall h hmem
          rcases List.mem_cons.mp hmem with rfl | hm
          · exact ⟨some (mv, d), ho⟩
          · exact hall h hm
        · intro hall h hmem
          exact hall h (List.mem_cons_of_mem _ hmem)

/-- `minerScan` succeeds exactly when the miner is processed without fatal
error, independent of the global state. -/
theorem minerScan_succ_iff {KS : Type} (deriver : AddressDeriver KS) (cache : BlockCache)
    (heights : List Nat) (m : MinerEntry) (g : GlobalScanState) :
    (∃ sg, minerScan deriver cache heights m g = .ok sg) ↔
      minerOk deriver cache heights m := by
  cases hk : deriver.new_from_ufvk m.key with
  | error e =>
    constructor
    · rintro ⟨sg, hsg⟩
      unfold minerScan at hsg
      rw [hk, except_bind_error] at hsg
      cases hsg
    · rintro ⟨ks, hks, _⟩
      rw [hk] at hks
      cases hks
  | ok ks =>
    constructor
    · rintro ⟨sg, hsg⟩
      unfold minerScan at hsg
      rw [hk] at hsg
      simp only [except_bind_ok] at hsg
      cases hf : heights.foldlM (minerHeightStep deriver cache ks)
          ({ blocks := 0, total_value := 0, details := [] }, g) with
      | error e => rw [hf, except_bind_error] at hsg; cases hsg
      | ok msg =>
        exact ⟨ks, hk, (heightFold_succ_iff deriver cache ks heights _).mp ⟨msg, hf⟩⟩
    · rintro ⟨ks2, hks2, hall⟩
      rw [hk] at hks2
      injection hks2 with hks2
      subst hks2
      obtain ⟨msg, hf⟩ := (heightFold_succ_iff deriver cache ks heights
        ({ blocks := 0, total_value := 0, details := [] }, g)).mpr hall
      obtain ⟨ms, g1⟩ := msg
      refine ⟨({ label := m.label, matched_blocks := ms.blocks, total_value_zat := ms.total_value, total_value_wec := zats_to_wec ms.total_value, share_percent := 0, detailed_blocks := ms.details }, g1), ?_⟩
      unfold minerScan
      rw [hk]
      simp only [except_bind_ok]
      rw [hf]
      rfl

/-- The miner loop succeeds from any accumulator exactly when every miner
is processed without fatal error. -/
theorem statsFold_succ_iff {KS : Type} (deriver : AddressDeriver KS) (cache : BlockCache)
    (heights : List Nat) :
    ∀ (miners : List MinerEntry) (acc : List MinerSummary × GlobalScanState),
    (∃ r, miners.foldlM
      (fun acc miner => do
        let (s, g1) ← minerScan deriver cache heights miner acc.2
        pure (acc.1 ++ [s], g1)) acc = .ok r) ↔
    ∀ m ∈ miners, minerOk deriver cache heights m := by
  intro miners
  induction miners with
  | nil =>
    intro acc
    constructor
    · intro _ m hm
      cases hm
    · intro _
      exact ⟨acc, rfl⟩
  | cons m rest ih =>
    intro acc
    simp only [List.foldlM_cons]
    cases hsc : minerScan deriver cache heights m acc.2 with
    | error e =>
      simp only [hsc, except_bind_error]
      constructor
      · rintro ⟨r, hr⟩
        cases hr
      · intro hall
        obtain ⟨sg, hsg⟩ :=
          (minerScan_succ_iff deriver cache heights m acc.2).mpr (hall m (List.mem_cons_self _ _))
        rw [hsc] at hsg
        cases hsg
    | ok sg =>
      obtain ⟨s, g1⟩ := sg
      constructor
      · intro hex m2 hm2
        rcases List.mem_cons.mp hm2 with rfl | hm3
        · exact (minerScan_succ_iff deriver cache heights m2 acc.2).mp ⟨(s, g1), hsc⟩
        · obtain ⟨r, hr⟩ := hex
          have hr2 : List.foldlM
              (fun acc miner => do
                let (s, g1) ← minerScan deriver cache heights miner acc.2
                pure (acc.1 ++ [s], g1)) (acc.1 ++ [s], g1) rest = .ok r := hr
          exact (ih (acc.1 ++ [s], g1)).mp ⟨r, hr2⟩ m2 hm3
      · intro hall
        obtain ⟨r, hr⟩ := (ih (acc.1 ++ [s], g1)).mpr
          (fun m2 hm2 => hall m2 (List.mem_cons_of_mem _ hm2))
        exact ⟨r, hr⟩

/-- C4. Miner-order independence: if a run succeeds, it also succeeds with
the miner list permuted; the matched-height count and the whole unmatched
summary are unchanged, each miner's final summary is a function of the
miner alone (so every individual aggregate is unchanged), and the
`miners` / `detailed_miners` lists are correspondingly permuted. -/
theorem miner_order_independent {KS : Type} (deriver : AddressDeriver KS)
    (cfg : MinerStatsConfig) (cache : BlockCache) (tip : Nat) (pm : List MinerSummary)
    (g : GlobalScanState) (r : MinerStatsReport) (miners2 : List MinerEntry)
    (hfold : statsFold deriver cfg cache (rangeHeights cfg.start_height tip) = .ok (pm, g))
    (hok : compute_statistics deriver cfg cache tip = .ok r)
    (hperm : miners2.Perm cfg.miners) :
    ∃ r2, compute_statistics deriver { start_height := cfg.start_height, miners := miners2 }
        cache tip = .ok r2 ∧
      r2.total_mined_blocks = r.total_mined_blocks ∧
      r2.unmatched = r.unmatched ∧
      r2.detailed_miners = miners2.map (minerSummaryFinal deriver cache
        (rangeHeights cfg.start_height tip) (rangeHeights cfg.start_height tip).length) ∧
      r.detailed_miners = cfg.miners.map (minerSummaryFinal deriver cache
        (rangeHeights cfg.start_height tip) (rangeHeights cfg.start_height tip).length) ∧
      r2.detailed_miners.Perm r.detailed_miners ∧
      r2.miners.Perm r.miners := by
  have hall : ∀ m ∈ cfg.miners, minerOk deriver cache (rangeHeights cfg.start_height tip) m :=
    (statsFold_succ_iff deriver cache (rangeHeights cfg.start_height tip) cfg.miners
      ([], { matched_blocks := ∅, block_totals := [] })).mp ⟨(pm, g), hfold⟩
  have hall2 : ∀ m ∈ miners2, minerOk deriver cache (rangeHeights cfg.start_height tip) m :=
    fun m hm => hall m (hperm.mem_iff.mp hm)
  obtain ⟨pg2, hfold2⟩ :=
    (statsFold_succ_iff deriver cache (rangeHeights cfg.start_height tip) miners2
      ([], { matched_blocks := ∅, block_totals := [] })).mpr hall2
  obtain ⟨pm2, g2⟩ := pg2
  have hfold2b : statsFold deriver { start_height := cfg.start_height, miners := miners2 }
      cache (rangeHeights cfg.start_height tip) = .ok (pm2, g2) := hfold2
  obtain ⟨hpm, hmemg, _⟩ :=
    statsFold_ok deriver cfg cache _ (rangeHeights_nodup _ _) pm g hfold
  obtain ⟨hpm2, hmemg2, _⟩ :=
    statsFold_ok deriver { start_height := cfg.start_height, miners := miners2 } cache _
      (rangeHeights_nodup _ _) pm2 g2 hfold2b
  have hset : g2.matched_blocks = g.matched_blocks := by
    apply Finset.ext
    intro x
    rw [hmemg2 x, hmemg x]
    constructor
    · rintro ⟨m, hm, hrest⟩
      exact ⟨m, hperm.mem_iff.mp hm, hrest⟩
    · rintro ⟨m, hm, hrest⟩
      exact ⟨m, hperm.mem_iff.mpr hm, hrest⟩
  obtain ⟨pma, ga, hfa, hra⟩ := compute_statistics_ok_inv deriver cfg cache tip r hok
  rw [hfold] at hfa
  injection hfa with hfa
  rw [Prod.mk.injEq] at hfa
  obtain ⟨h1a, h2a⟩ := hfa
  subst h1a
  subst h2a
  subst hra
  refine ⟨reportOf { start_height := cfg.start_height, miners := miners2 } cache tip pm2 g2,
    compute_statistics_eq_ok deriver _ cache tip pm2 g2 hfold2b, ?_, ?_, ?_, ?_, ?_, ?_⟩
  · rw [reportOf_total_mined, reportOf_total_mined, hset]
  · rw [reportOf_unmatched, reportOf_unmatched, hset]
  · rw [reportOf_detailed, hpm2, List.map_map]
    rfl
  · rw [reportOf_detailed, hpm, List.map_map]
    rfl
  · rw [reportOf_detailed, reportOf_detailed, hpm2, hpm, List.map_map, List.map_map]
    exact hperm.map _
  · rw [reportOf_miners, reportOf_miners, hpm2, hpm, List.map_map, List.map_map,
      List.map_map, List.map_map]
    exact hperm.map _

/-- Witness for C4: the two-miner configuration with the miner list
reversed. -/
theorem miner_order_independent_witness :
    ∃ r2, compute_statistics exDeriver
        { start_height := exCfgAB.start_height,
          miners := [{ key := "B", label := "Miner B" }, { key := "A", label := "Miner A" }] }
        exCacheGap 102 = .ok r2 ∧
      r2.total_mined_blocks =
        (reportOf exCfgAB exCacheGap 102
          [({ label := "Miner A", matched_blocks := 1, total_value_zat := 5, total_value_wec := zats_to_wec 5, share_percent := 0, detailed_blocks := [{ block_height := 100, block_hash := "h100", payout_address := "addrA" }] } : MinerSummary),
           ({ label := "Miner B", matched_blocks := 1, total_value_zat := 3, total_value_wec := zats_to_wec 3, share_percent := 0, detailed_blocks := [{ block_height := 100, block_hash := "h100", payout_address := "addrB" }] } : MinerSummary)]
          (GlobalScanState.mk {100} [(100, 5)])).total_mined_blocks ∧
      r2.unmatched =
        (reportOf exCfgAB exCacheGap 102
          [({ label := "Miner A", matched_blocks := 1, total_value_zat := 5, total_value_wec := zats_to_wec 5, share_percent := 0, detailed_blocks := [{ block_height := 100, block_hash := "h100", payout_address := "addrA" }] } : MinerSummary),
           ({ label := "Miner B", matched_blocks := 1, total_value_zat := 3, total_value_wec := zats_to_wec 3, share_percent := 0, detailed_blocks := [{ block_height := 100, block_hash := "h100", payout_address := "addrB" }] } : MinerSummary)]
          (GlobalScanState.mk {100} [(100, 5)])).unmatched ∧
      r2.detailed_miners =
        [({ key := "B", label := "Miner B" } : MinerEntry),
         ({ key := "A", label := "Miner A" } : MinerEntry)].map
          (minerSummaryFinal exDeriver exCacheGap (rangeHeights exCfgAB.start_height 102)
            (rangeHeights exCfgAB.start_height 102).length) ∧
      (reportOf exCfgAB exCacheGap 102
          [({ label := "Miner A", matched_blocks := 1, total_value_zat := 5, total_value_wec := zats_to_wec 5, share_percent := 0, detailed_blocks := [{ block_height := 100, block_hash := "h100", payout_address := "addrA" }] } : MinerSummary),
           ({ label := "Miner B", matched_blocks := 1, total_value_zat := 3, total_value_wec := zats_to_wec 3, share_percent := 0, detailed_blocks := [{ block_height := 100, block_hash := "h100", payout_address := "addrB" }] } : MinerSummary)]
          (GlobalScanState.mk {100} [(100, 5)])).detailed_miners =
        exCfgAB.miners.map
          (minerSummaryFinal exDeriver exCacheGap (rangeHeights exCfgAB.start_height 102)
            (rangeHeights exCfgAB.start_height 102).length) ∧
      r2.detailed_miners.Perm
        (reportOf exCfgAB exCacheGap 102
          [({ label := "Miner A", matched_blocks := 1, total_value_zat := 5, total_value_wec := zats_to_wec 5, share_percent := 0, detailed_blocks := [{ block_height := 100, block_hash := "h100", payout_address := "addrA" }] } : MinerSummary),
           ({ label := "Miner B", matched_blocks := 1, total_value_zat := 3, total_value_wec := zats_to_wec 3, share_percent := 0, detailed_blocks := [{ block_height := 100, block_hash := "h100", payout_address := "addrB" }] } : MinerSummary)]
          (GlobalScanState.mk {100} [(100, 5)])).detailed_miners ∧
      r2.miners.Perm
        (reportOf exCfgAB exCacheGap 102
          [({ label := "Miner A", matched_blocks := 1, total_value_zat := 5, total_value_wec := zats_to_wec 5, share_percent := 0, detailed_blocks := [{ block_height := 100, block_hash := "h100", payout_address := "addrA" }] } : MinerSummary),
           ({ label := "Miner B", matched_blocks := 1, total_value_zat := 3, total_value_wec := zats_to_wec 3, share_percent := 0, detailed_blocks := [{ block_height := 100, block_hash := "h100", payout_address := "addrB" }] } : MinerSummary)]
          (GlobalScanState.mk {100} [(100, 5)])).miners :=
  miner_order_independent exDeriver exCfgAB exCacheGap 102
    [({ label := "Miner A", matched_blocks := 1, total_value_zat := 5, total_value_wec := zats_to_wec 5, share_percent := 0, detailed_blocks := [{ block_height := 100, block_hash := "h100", payout_address := "addrA" }] } : MinerSummary),
     ({ label := "Miner B", matched_blocks := 1, total_value_zat := 3, total_value_wec := zats_to_wec 3, share_percent := 0, detailed_blocks := [{ block_height := 100, block_hash := "h100", payout_address := "addrB" }] } : MinerSummary)]
    (GlobalScanState.mk {100} [(100, 5)]) _
    [{ key := "B", label := "Miner B" }, { key := "A", label := "Miner A" }]
    (by rfl)
    (compute_statistics_eq_ok exDeriver exCfgAB exCacheGap 102 _ _ (by rfl))
    (List.Perm.swap ({ key := "A", label := "Miner A" } : MinerEntry)
      ({ key := "B", label := "Miner B" } : MinerEntry) [])
